import Mathlib

/-
Shallow embedding of the Path Migration & Reconciliation Engine
(src/migrate-claude-project-paths.py).

Strings of the Python source are modelled as lists of characters
(Python `str` is a sequence of Unicode code points; Lean `Char` is a
Unicode scalar value).  Directories are modelled as association lists
from entry name to entry payload; the filesystem queries used by the
script (`exists`, `is_dir`, globbing) become lookups on those lists or
explicit Boolean oracles.
-/

abbrev Str := List Char

/-- The encoder `eu` on a single character: `re.sub(r"[^a-zA-Z0-9]", "-", value)`
replaces every character outside the three ASCII ranges by `-`. -/
def euChar (c : Char) : Char :=
  if ('a' ≤ c ∧ c ≤ 'z') ∨ ('A' ≤ c ∧ c ≤ 'Z') ∨ ('0' ≤ c ∧ c ≤ '9') then c else '-'

/-- The encoder `eu(value)` from the source: per-character substitution over the string. -/
def eu (s : Str) : Str := s.map euChar

/-- A character allowed in an encoded directory name: `[A-Za-z0-9-]`. -/
def euAllowed (c : Char) : Prop :=
  ('a' ≤ c ∧ c ≤ 'z') ∨ ('A' ≤ c ∧ c ≤ 'Z') ∨ ('0' ≤ c ∧ c ≤ '9') ∨ c = '-'

instance (c : Char) : Decidable (euAllowed c) := by
  unfold euAllowed; infer_instance

/-- Python `a.startswith(b)` on character lists (first argument is the whole
string, second the candidate leading part). -/
def startsWithStr : Str → Str → Bool
  | _, [] => true
  | [], _ :: _ => false
  | a :: as, b :: bs => a == b && startsWithStr as bs

/-- From the source, `apply_prefix_mapping(value, src, dst)`:
exact match maps to `dst`; a match of `src + "/"` as a leading part maps
to `dst + value[len(src):]`; anything else is returned unchanged. -/
def apply_prefix_mapping (value src dst : Str) : Str :=
  if value = src then dst
  else if startsWithStr value (src ++ ['/']) then dst ++ value.drop src.length
  else value

/-- A directory: an association list from entry name to entry payload
(the payload type is a parameter; file contents for session files,
link targets for symlinks). -/
abbrev Dir (γ : Type) := List (Str × γ)

/-- Content lookup by entry name (first match). -/
def dirFind {γ : Type} : Dir γ → Str → Option γ
  | [], _ => none
  | e :: es, n => if e.1 == n then some e.2 else dirFind es n

/-- Python `path.exists()` for an entry name inside a modelled directory. -/
def dirHas {γ : Type} (d : Dir γ) (n : Str) : Bool :=
  (dirFind d n).isSome

/-- Creating a fresh entry in a directory (`src.rename(dst)`, target side). -/
def dirInsert {γ : Type} (d : Dir γ) (n : Str) (c : γ) : Dir γ := d ++ [(n, c)]

/-- Decimal digits of `n`, most significant first, with explicit fuel so
that the recursion is structural.  `natDigitsAux fuel n acc` prepends the
digits of `n` to `acc` as long as the fuel suffices. -/
def natDigitsAux : Nat → Nat → Str → Str
  | 0, _, acc => acc
  | fuel + 1, n, acc =>
    if n < 10 then Char.ofNat (48 + n) :: acc
    else natDigitsAux fuel (n / 10) (Char.ofNat (48 + n % 10) :: acc)

/-- Decimal representation of `n` (`n + 1` fuel always suffices since a
number has at most `n + 1` digits). -/
def natDigits (n : Nat) : Str := natDigitsAux (n + 1) n []

/-- Python `f"{i:04d}"`: decimal representation left-padded with `'0'` to a
minimum width of four characters. -/
def pad4 (n : Nat) : Str :=
  List.replicate (4 - (natDigits n).length) '0' ++ natDigits n

/-- Index of the first character satisfying `p`. -/
def findIdxAux (p : Char → Bool) : Str → Option Nat
  | [] => none
  | c :: cs => if p c then some 0 else (findIdxAux p cs).map (· + 1)

/-- The `pathlib` stem/extension split of a file name: the extension starts
at the last `'.'` provided that dot is neither the first nor the last
character; otherwise the extension is empty.  (The last `'.'` of the name
is the first `'.'` of its reversal.) -/
def splitExt (name : Str) : Str × Str :=
  match findIdxAux (fun c => c == '.') name.reverse with
  | none => (name, [])
  | some j =>
    if j = 0 ∨ j = name.length - 1 then (name, [])
    else (name.take (name.length - 1 - j), name.drop (name.length - 1 - j))

/-- The conflict name `f"{stem}.conflict{i:04d}{suffix}"` built by
`move_file_no_overwrite` for attempt `i`. -/
def conflictName (name : Str) (i : Nat) : Str :=
  (splitExt name).1 ++ ".conflict".toList ++ pad4 i ++ (splitExt name).2

/-- First number `i` in `[start, start + fuel)` with `free i = true`,
scanning upwards — the search of `for i in range(1, 10_000)`. -/
def findSlot (free : Nat → Bool) : Nat → Nat → Option Nat
  | _, 0 => none
  | start, fuel + 1 =>
    if free start then some start else findSlot free (start + 1) fuel

/-- From the source, `move_file_no_overwrite(src, dst)` restricted to the destination
directory: if the destination name is unused the entry appears there; if
it is taken, conflict names `.conflict0001` … are tried in order
(`range(1, 10_000)`, i.e. indices 1 through 9999); `none` models the
`RuntimeError` raised when every conflict name is taken. -/
def moveNoOverwrite {γ : Type} (d : Dir γ) (n : Str) (c : γ) : Option (Dir γ × Str) :=
  if dirHas d n = false then some (dirInsert d n c, n)
  else
    match findSlot (fun i => !dirHas d (conflictName n i)) 1 9999 with
    | some i => some (dirInsert d (conflictName n i) c, conflictName n i)
    | none => none

/-- Lexicographic comparison of names by code point — the order used by
`sorted(..., key=lambda p: p.name)`. -/
def lexLe : Str → Str → Bool
  | [], _ => true
  | _ :: _, [] => false
  | a :: as, b :: bs =>
    if a.val < b.val then true
    else if b.val < a.val then false
    else lexLe as bs

/-- Insertion into a sorted list. -/
def insertLe {α : Type} (le : α → α → Bool) (a : α) : List α → List α
  | [] => [a]
  | b :: bs => if le a b then a :: b :: bs else b :: insertLe le a bs

/-- Insertion sort with a Boolean comparison. -/
def sortByLe {α : Type} (le : α → α → Bool) : List α → List α
  | [] => []
  | a :: as => insertLe le a (sortByLe le as)

/-- From the source, `merge_project_dirs(old_dir, new_dir, dry_run=False)` acting on the
destination directory: iterate the entries of the old directory in
name-sorted order, skip hidden entries, and move each remaining entry
into the new directory with `move_file_no_overwrite`, recording the
`(source name, final name)` pairs.  `none` models the propagated
`RuntimeError`. -/
def mergeApply {γ : Type} : List (Str × γ) → Dir γ → Option (Dir γ × List (Str × Str))
  | [], new => some (new, [])
  | (n, c) :: rest, new =>
    if startsWithStr n ['.'] then mergeApply rest new
    else
      match moveNoOverwrite new n c with
      | none => none
      | some (d', f) =>
        match mergeApply rest d' with
        | none => none
        | some (d'', mvs) => some (d'', (n, f) :: mvs)

/-- The full `merge_project_dirs` with its `dry_run` flag: in dry-run mode the
intended `(source, target)` pairs are recorded without touching the
directory; otherwise the entries are actually moved. -/
def mergeProjectDirs {γ : Type} (dry : Bool) (old : List (Str × γ)) (new : Dir γ) :
    Option (Dir γ × List (Str × Str)) :=
  let entries := sortByLe (fun a b => lexLe a.1 b.1) old
  if dry then
    some (new, (entries.filter (fun e => !startsWithStr e.1 ['.'])).map (fun e => (e.1, e.1)))
  else mergeApply entries new

/-- A destination directory in which the plain name `a` and all 9,999
conflict names `a.conflict0001` … `a.conflict9999` are taken, while
`a.conflict10000` is not. -/
def dBig (γ : Type) (c : γ) : Dir γ :=
  ("a".toList, c) ::
    (List.range' 1 9999).map (fun i => (conflictName "a".toList i, c))

/-- Python `name.endswith(p)`. -/
def endsWithStr (l p : Str) : Bool := startsWithStr l.reverse p.reverse

/-- The `*.jsonl` glob pattern used to select session record files for
cwd rewriting (`fnmatch`-style: any name ending in `.jsonl`). -/
def matchesJsonl (n : Str) : Bool := endsWithStr n ".jsonl".toList

/-- The value found at the `"cwd"` key of a parsed record line, as far
as the script inspects it: `isinstance(cwd, str)` distinguishes a string
value from any other JSON value. -/
inductive JVal where
  | jstr (s : Str)
  | jother
deriving DecidableEq, Repr

/-- The boundary to Python's `json` module, kept abstract: a parser from
a stripped line to an object of some type `J`, field access and update
for `"cwd"`, and a serializer.  No assumption is made about these
functions.  This interface carries only the two non-crashing outcomes
of `json.loads` — an exception, or a dict — and therefore models only
the crash-free paths of the line loop; `JsonIFE` below also carries the
valid-JSON-non-dict outcome, on which the source crashes, and
`rewriteLinesE_agrees` shows the two line passes coincide whenever no
line actually loads as a non-dict. -/
structure JsonIF (J : Type) where
  parse : Str → Option J
  getCwd : J → Option JVal
  setCwd : J → Str → J
  dumps : J → Str

/-- A whitespace character for Python's default `str.strip` (ASCII
part: space, tab, newline, carriage return, vertical tab, form feed). -/
def isPyWS (c : Char) : Bool :=
  c == ' ' || c == '\t' || c == '\n' || c == '\r' ||
    c == Char.ofNat 11 || c == Char.ofNat 12

/-- Python `line.strip()`. -/
def pyStrip (l : Str) : Str :=
  ((l.dropWhile isPyWS).reverse.dropWhile isPyWS).reverse

/-- Python `line.endswith("\n")`. -/
def endsNl (l : Str) : Bool := l.getLast? == some '\n'

/-- One iteration of the line loop of `rewrite_jsonl_cwds`, restricted
to its crash-free paths: blank lines and lines on which `json.loads`
raises pass through unchanged; a parsed dict with a string `cwd` whose
prefix mapping changes it is re-serialized (keeping the trailing
newline if the original line had one) and flagged as changed; every
other line passes through unchanged.  Returns the output line and the
changed flag.  The faithful model that also keeps the uncaught
`AttributeError` raised on a valid-JSON-non-dict line is `rewriteLineE`
below, which agrees with this one away from that crash. -/
def rewriteLine (J : Type) (jf : JsonIF J) (src dst : Str) (line : Str) : Str × Bool :=
  let stripped := pyStrip line
  if stripped = [] then (line, false)
  else
    match jf.parse stripped with
    | none => (line, false)
    | some obj =>
      match jf.getCwd obj with
      | some (JVal.jstr cwd) =>
        let newCwd := apply_prefix_mapping cwd src dst
        if newCwd ≠ cwd then
          (jf.dumps (jf.setCwd obj newCwd) ++ (if endsNl line then ['\n'] else []), true)
        else (line, false)
      | _ => (line, false)

/-- The full line pass of `rewrite_jsonl_cwds` over a file's lines. -/
def rewriteLines (J : Type) (jf : JsonIF J) (src dst : Str) (lines : List Str) :
    List (Str × Bool) :=
  lines.map (rewriteLine J jf src dst)

/-- The content of a session record file, as the list of its lines
(`splitlines(keepends=True)`). -/
abbrev Content := List Str

/-- From the source, `rewrite_jsonl_cwds(jsonl_path, src, dst, backup_root=…, dry_run=…)`
on a file's content and the state of its mirrored backup path.  Returns
the resulting file content, the resulting backup state, and the changed
flag the function reports.  If no line changed the file is untouched;
in dry-run mode the function reports the change without mutating; when
applying, the original content is copied to the backup path first — but
only if no backup exists there — and the rewritten lines are written
back. -/
def rewriteJsonlCwds (J : Type) (jf : JsonIF J) (src dst : Str) (dryRun : Bool)
    (content : Content) (backup : Option Content) : Content × Option Content × Bool :=
  let processed := rewriteLines J jf src dst content
  let changed := processed.any (fun r => r.2)
  if changed = false then (content, backup, false)
  else if dryRun then (content, backup, true)
  else
    let backup' := match backup with
      | some b => some b
      | none => some content
    (processed.map (fun r => r.1), backup', true)

/-- The outcome of `json.loads(stripped)` at line 154 of
`rewrite_jsonl_cwds`: the call raises (malformed line), or returns a
valid JSON value that is not a dict (such as `3`, `null`, `"x"` or
`[1]`, none of which has a `.get` method), or returns a dict. -/
inductive LoadResult (J : Type) where
  | raise
  | nonDict
  | dict (o : J)
deriving DecidableEq, Repr

/-- The boundary to Python's `json` module with the full outcome of
`json.loads` distinguished, including the valid-non-dict case on which
the source crashes (see `rewriteLineE`). -/
structure JsonIFE (J : Type) where
  loads : Str → LoadResult J
  getCwd : J → Option JVal
  setCwd : J → Str → J
  dumps : J → Str

/-- The crash-free restriction of a full json boundary: a non-dict load
is folded into parse failure, which is the only sound collapse when no
line actually loads as a non-dict (`rewriteLinesE_agrees`). -/
def JsonIFE.toIF {J : Type} (jf : JsonIFE J) : JsonIF J :=
  ⟨fun s => match jf.loads s with
    | LoadResult.dict o => some o
    | _ => none,
   jf.getCwd, jf.setCwd, jf.dumps⟩

/-- One iteration of the line loop of `rewrite_jsonl_cwds` with the
crash path kept: the `try`/`except` of lines 153–157 wraps only
`json.loads`, while line 159 `cwd = obj.get("cwd")` sits outside it, so
a line that loads as a valid non-dict JSON value raises an uncaught
`AttributeError` — modelled as `none`. -/
def rewriteLineE (J : Type) (jf : JsonIFE J) (src dst : Str) (line : Str) :
    Option (Str × Bool) :=
  let stripped := pyStrip line
  if stripped = [] then some (line, false)
  else
    match jf.loads stripped with
    | LoadResult.raise => some (line, false)
    | LoadResult.nonDict => none
    | LoadResult.dict obj =>
      match jf.getCwd obj with
      | some (JVal.jstr cwd) =>
        let newCwd := apply_prefix_mapping cwd src dst
        if newCwd ≠ cwd then
          some (jf.dumps (jf.setCwd obj newCwd) ++ (if endsNl line then ['\n'] else []),
            true)
        else some (line, false)
      | _ => some (line, false)

/-- The line pass of `rewrite_jsonl_cwds` with the crash kept: the
uncaught `AttributeError` aborts the loop, so no output list is
produced at all. -/
def rewriteLinesE (J : Type) (jf : JsonIFE J) (src dst : Str) :
    List Str → Option (List (Str × Bool))
  | [] => some []
  | l :: ls =>
    match rewriteLineE J jf src dst l with
    | none => none
    | some r =>
      match rewriteLinesE J jf src dst ls with
      | none => none
      | some rs => some (r :: rs)

/-- `rewrite_jsonl_cwds` with the crash path kept: `none` models the
propagated `AttributeError`, which escapes before any backup or write
and kills the whole run. -/
def rewriteJsonlCwdsE (J : Type) (jf : JsonIFE J) (src dst : Str) (dryRun : Bool)
    (content : Content) (backup : Option Content) :
    Option (Content × Option Content × Bool) :=
  match rewriteLinesE J jf src dst content with
  | none => none
  | some processed =>
    let changed := processed.any (fun r => r.2)
    if changed = false then some (content, backup, false)
    else if dryRun then some (content, backup, true)
    else
      let backup2 := match backup with
        | some b => some b
        | none => some content
      some (processed.map (fun r => r.1), backup2, true)

/-- A concrete full json boundary: the line `3` loads as a valid
non-dict JSON value, every other line raises. -/
def jfNonDict : JsonIFE Unit :=
  ⟨fun s => if s = "3".toList then LoadResult.nonDict else LoadResult.raise,
   fun _ => none, fun o _ => o, fun _ => []⟩

/-- The candidate filter of `main` (lines 291–299): a mapping pair
becomes a candidate when the encoded old directory exists and is a
directory and `Path(dst).exists()` — the code checks bare existence of
the destination, not that it is a directory.  The mapping is iterated
in sorted order (`sorted(mapping.items())`). -/
def candidatesOf (mapping : List (Str × Str)) (exD isD hostEx : Str → Bool) :
    List (Str × Str) :=
  (sortByLe (fun a b => lexLe a.1 b.1) mapping).filter
    (fun pr => exD (eu pr.1) && isD (eu pr.1) && hostEx pr.2)

/-- Follows the spec's words, not the code, for comparison with
`candidatesOf`: "a mapping is never a candidate unless both the encoded
old directory exists and the raw new path exists on disk … `new_path`
exists as a real directory on the host filesystem" — i.e. the
destination must exist *and be a directory*. -/
def candidatesSpec (mapping : List (Str × Str)) (exD isD hostEx hostIsD : Str → Bool) :
    List (Str × Str) :=
  (sortByLe (fun a b => lexLe a.1 b.1) mapping).filter
    (fun pr => exD (eu pr.1) && isD (eu pr.1) && (hostEx pr.2 && hostIsD pr.2))

/-- In-place overwrite of an existing entry's payload (a file write). -/
def dirSet {γ : Type} (d : Dir γ) (n : Str) (c : γ) : Dir γ :=
  d.map (fun e => if e.1 == n then (e.1, c) else e)

/-- Removal of an entry (`old_dir.rmdir()`). -/
def dirRemove {γ : Type} (d : Dir γ) (n : Str) : Dir γ :=
  d.filter (fun e => !(e.1 == n))

/-- From the source, `sorted(new_dir.glob("*.jsonl"), key=lambda p: p.name)`: the names
of the directory matching `*.jsonl`, in sorted order. -/
def globJsonl {γ : Type} (d : Dir γ) : List Str :=
  sortByLe lexLe ((d.map Prod.fst).filter matchesJsonl)

/-- One audit-log line of `actions.jsonl`. -/
inductive AuditEntry where
  | projectDirMerge (src dst : Str) (moved : List (Str × Str))
  | rewriteCwd (file src dst : Str)
  | rmdirEmptyProjectDir (d : Str)
  | archivedSymlinks (moved : List (Str × Str))
deriving DecidableEq, Repr

/-- The two fatal conditions of a run: `SystemExit` for a missing
ledger with no manual pairs, and the propagated `RuntimeError` when the
conflict-name space is exhausted during a move. -/
inductive MigError where
  | noLedger
  | conflictOverflow
deriving DecidableEq, Repr

/-- The filesystem state the script touches: the `projects` archive
(encoded directory name ↦ directory of session files), the symlink
entries directly under it, the per-run migration directory (its
existence, the ledger copies placed in it, the backup tree keyed by
`<encoded dir>/<file>`, the audit log), and the hidden symlink-archive
directory.  The model tracks the old and the new encoded directory of a
candidate as distinct entries, as produced by the candidate filter for
a genuinely moved path. -/
structure World where
  projects : Dir (Dir Content)
  symlinks : Dir Str
  runDirMade : Bool
  ledgerCopies : List Str
  backups : Dir Content
  audit : List AuditEntry
  archivedLinks : Dir Str
deriving DecidableEq, Repr

/-- The effect on the world of processing one `*.jsonl` file in the
rewrite loop: in apply mode a changed file is written back, its
pristine content is backed up at the mirrored path unless a backup
already exists there, and an audit entry is appended; otherwise the
world is untouched. -/
def rewriteStepWorld (J : Type) (jf : JsonIF J) (dry : Bool) (src dst newName f : Str)
    (w : World) : World :=
  let dirNow := (dirFind w.projects newName).getD []
  let content := (dirFind dirNow f).getD []
  let bkey := newName ++ '/' :: f
  let bk := dirFind w.backups bkey
  let r := rewriteJsonlCwds J jf src dst dry content bk
  if dry then w
  else if r.2.2 then
    { w with
      projects := dirSet w.projects newName (dirSet dirNow f r.1),
      backups := match bk, r.2.1 with
        | none, some b => dirInsert w.backups bkey b
        | _, _ => w.backups,
      audit := w.audit ++ [AuditEntry.rewriteCwd f src dst] }
  else w

/-- The per-candidate rewrite loop of `main` (lines 356–376): for each
selected `*.jsonl` file of the new directory, run the cwd rewrite,
mutate the world per `rewriteStepWorld`, and count the changed files. -/
def rewritePhase (J : Type) (jf : JsonIF J) (dry : Bool) (src dst newName : Str) :
    List Str → World → World × Nat
  | [], w => (w, 0)
  | f :: fs, w =>
    let r := rewriteJsonlCwds J jf src dst dry
      ((dirFind ((dirFind w.projects newName).getD []) f).getD [])
      (dirFind w.backups (newName ++ '/' :: f))
    let rest := rewritePhase J jf dry src dst newName fs
      (rewriteStepWorld J jf dry src dst newName f w)
    (rest.1, (if r.2.2 then 1 else 0) + rest.2)

/-- The `safe_mkdir(new_dir)` step before the merge: in apply mode the new
encoded directory is created when absent. -/
def mkdirStep (dry : Bool) (newName : Str) (w : World) : World :=
  if dry then w
  else if dirHas w.projects newName then w
  else { w with projects := dirInsert w.projects newName [] }

/-- One iteration of the candidate loop of `main` (lines 332–388):
ensure the new directory exists (apply), merge the old directory into
it, log the merge, rewrite the cwd fields of the `*.jsonl` files now in
the new directory, and remove the old directory if it is now empty.
Returns the final world, the entries-moved count, the rewritten-files
count, and the error of a propagated `RuntimeError`, if any.  (In the
model the old directory is assumed to exist, as the candidate filter
guarantees.) -/
def processOneCandidate (J : Type) (jf : JsonIF J) (dry : Bool) (src dst : Str)
    (w : World) : World × Nat × Nat × Option MigError :=
  let oldName := eu src
  let newName := eu dst
  let w0 := mkdirStep dry newName w
  let oldEntries := (dirFind w0.projects oldName).getD []
  let newDir0 := (dirFind w0.projects newName).getD []
  match mergeProjectDirs dry oldEntries newDir0 with
  | none => (w0, 0, 0, some MigError.conflictOverflow)
  | some (newDir1, mvs) =>
    let w1 := if dry then w0
      else { w0 with
        projects := dirSet (dirSet w0.projects newName newDir1) oldName
          (oldEntries.filter (fun e => startsWithStr e.1 ['.'])),
        audit := w0.audit ++ [AuditEntry.projectDirMerge src dst mvs] }
    let curNew := (dirFind w1.projects newName).getD []
    let files := globJsonl curNew
    let rws := rewritePhase J jf dry src dst newName files w1
    let w2 := rws.1
    let cnt := rws.2
    let w3 := if dry then w2
      else
        let rem := (dirFind w2.projects oldName).getD []
        if rem = [] then
          { w2 with
            projects := dirRemove w2.projects oldName,
            audit := w2.audit ++ [AuditEntry.rmdirEmptyProjectDir oldName] }
        else w2
    (w3, mvs.length, cnt, none)

/-- The candidate loop: candidates are processed in order; a propagated
error aborts the rest of the batch (the `RuntimeError` is uncaught). -/
def processCandidates (J : Type) (jf : JsonIF J) (dry : Bool) :
    List (Str × Str) → World → World × Option MigError
  | [], w => (w, none)
  | (src, dst) :: rest, w =>
    let r := processOneCandidate J jf dry src dst w
    match r.2.2.2 with
    | some e => (r.1, some e)
    | none => processCandidates J jf dry rest r.1

/-- The `archive_symlinks` pass under its flag: in dry-run only the intended
moves are listed; in apply mode the non-hidden symlink entries are
moved (never overwriting) into the hidden archive directory and an
audit entry is appended. -/
def archiveSymlinksRun (dry : Bool) (w : World) : World × Option MigError :=
  if dry then (w, none)
  else
    match mergeApply (sortByLe (fun a b => lexLe a.1 b.1) w.symlinks) w.archivedLinks with
    | none => (w, some MigError.conflictOverflow)
    | some (arch, mvs) =>
      ({ w with
         symlinks := w.symlinks.filter (fun e => startsWithStr e.1 ['.']),
         archivedLinks := arch,
         audit := w.audit ++ [AuditEntry.archivedSymlinks mvs] }, none)

/-- The tail of `main` after the candidate loop: a propagated
`RuntimeError` terminates the process with a non-zero status; otherwise
the optional symlink archiving runs and the process returns 0. -/
def finishRun (archiveFlag dry : Bool) (pc : World × Option MigError) :
    World × Except MigError Nat :=
  match pc.2 with
  | some e => (pc.1, Except.error e)
  | none =>
    if archiveFlag then
      let ar := archiveSymlinksRun dry pc.1
      match ar.2 with
      | some e => (ar.1, Except.error e)
      | none => (ar.1, Except.ok 0)
    else (pc.1, Except.ok 0)

/-- The apply-mode setup (lines 306–314): create the timestamped run
directory and the backup root, and copy the ledger inputs used into the
run directory for provenance.  A dry run makes none of these. -/
def setupWorld (dry movesExists correctionsExists pairsProvided : Bool)
    (w : World) : World :=
  if dry then w
  else { w with
    runDirMade := true,
    ledgerCopies := w.ledgerCopies ++
      (if movesExists then ["moves.csv".toList] else []) ++
      (if correctionsExists then ["moves_corrections.csv".toList] else []) ++
      (if pairsProvided then ["pairs.csv".toList] else []) }

/-- The body of `main` after argument parsing: abort with `SystemExit` when the
moves ledger is missing and no `--pair` was given; resolve candidates;
in apply mode create the run directory and copy the ledger inputs into
it; return 0 early when no candidate is actionable; process the
candidates; optionally archive symlinks; return 0. -/
def runMain (J : Type) (jf : JsonIF J)
    (movesExists correctionsExists pairsProvided : Bool)
    (mapping : List (Str × Str)) (hostEx : Str → Bool) (archiveFlag : Bool)
    (dry : Bool) (w : World) : World × Except MigError Nat :=
  if movesExists = false ∧ pairsProvided = false then
    (w, Except.error MigError.noLedger)
  else if candidatesOf mapping (fun n => dirHas w.projects n)
      (fun n => dirHas w.projects n) hostEx = [] then
    (setupWorld dry movesExists correctionsExists pairsProvided w, Except.ok 0)
  else
    finishRun archiveFlag dry (processCandidates J jf dry
      (candidatesOf mapping (fun n => dirHas w.projects n)
        (fun n => dirHas w.projects n) hostEx)
      (setupWorld dry movesExists correctionsExists pairsProvided w))

/-- A trivial instantiation of the json boundary (every line fails to
parse). -/
def jfU : JsonIF Unit := ⟨fun _ => none, fun _ => none, fun o _ => o, fun _ => []⟩

/-- A world in which the project directory for `/old` holds one entry
`a` and the project directory for `/new` is `dBig`: the destination
name `a` and all 9,999 conflict names are taken. -/
def wCE : World :=
  ⟨[(eu "/old".toList, [("a".toList, ["x".toList])]),
    (eu "/new".toList, dBig Content ["c".toList])], [], false, [], [], [], []⟩

/-- Whether the rewrite would change the file named `f` of directory
`d` — the quantity the changed-file counts are made of. -/
def fileChanged (J : Type) (jf : JsonIF J) (src dst : Str) (d : Dir Content) (f : Str) :
    Bool :=
  (rewriteLines J jf src dst ((dirFind d f).getD [])).any (fun r => r.2)

/-- A json boundary whose every line parses to an object with string
cwd `/p`. -/
def jf4 : JsonIF Unit :=
  ⟨fun _ => some (), fun _ => some (JVal.jstr "/p".toList), fun o _ => o,
    fun _ => "y".toList⟩

/-- A world where the old project directory of `/p` holds one session
file `a.jsonl` whose line's cwd is `/p`, and no directory for the
destination `/q` exists yet. -/
def w4 : World :=
  ⟨[(eu "/p".toList, [("a.jsonl".toList, ["x".toList])])], [], false, [], [], [], []⟩

theorem startsWithStr_append (p r : Str) : startsWithStr (p ++ r) p = true := by
  induction p with
  | nil => cases r <;> rfl
  | cons a as ih => simp [startsWithStr, ih]

theorem startsWithStr_exists {l p : Str} (h : startsWithStr l p = true) :
    ∃ r, l = p ++ r := by
  induction p generalizing l with
  | nil => exact ⟨l, rfl⟩
  | cons b bs ih =>
    cases l with
    | nil => simp [startsWithStr] at h
    | cons a as =>
      simp only [startsWithStr, Bool.and_eq_true, beq_iff_eq] at h
      obtain ⟨rfl, h2⟩ := h
      obtain ⟨r, rfl⟩ := ih h2
      exact ⟨r, rfl⟩

/-- Claim C7: the path encoder is total and deterministic; for every
string `s`, `eu s` has the same length as `s`, every character of the
output lies in `[A-Za-z0-9-]` (each character outside `[A-Za-z0-9]`
having been replaced by `-`), and re-encoding the output returns it
unchanged. -/
theorem claim_C7 :
    (∀ s : Str, (eu s).length = s.length) ∧
    (∀ s : Str, ∀ c ∈ eu s, euAllowed c) ∧
    (∀ (s : Str) (i : Nat) (h : i < s.length),
      (eu s).get ⟨i, by simpa [eu] using h⟩ =
        (if ('a' ≤ s.get ⟨i, h⟩ ∧ s.get ⟨i, h⟩ ≤ 'z') ∨
            ('A' ≤ s.get ⟨i, h⟩ ∧ s.get ⟨i, h⟩ ≤ 'Z') ∨
            ('0' ≤ s.get ⟨i, h⟩ ∧ s.get ⟨i, h⟩ ≤ '9')
         then s.get ⟨i, h⟩ else '-')) ∧
    (∀ s : Str, eu (eu s) = eu s) := by
  refine ⟨fun s => by simp [eu], fun s c hc => ?_, fun s i h => ?_, fun s => ?_⟩
  · simp only [eu, List.mem_map] at hc
    obtain ⟨a, _, rfl⟩ := hc
    unfold euChar euAllowed
    split
    · rename_i h
      rcases h with h | h | h
      · exact Or.inl h
      · exact Or.inr (Or.inl h)
      · exact Or.inr (Or.inr (Or.inl h))
    · exact Or.inr (Or.inr (Or.inr rfl))
  · simp [eu, euChar, List.get_eq_getElem, List.getElem_map]
  · simp only [eu, List.map_map]
    apply List.map_congr_left
    intro a _
    unfold euChar
    by_cases h : ('a' ≤ a ∧ a ≤ 'z') ∨ ('A' ≤ a ∧ a ≤ 'Z') ∨ ('0' ≤ a ∧ a ≤ '9')
    · simp [Function.comp, h]
    · simp only [Function.comp_apply, if_neg h]
      norm_num

/-- Witness for C7 at a concrete input. -/
theorem claim_C7_witness :
    (eu "/a b1".toList).length = "/a b1".toList.length ∧
    (∀ c ∈ eu "/a b1".toList, euAllowed c) ∧
    eu (eu "/a b1".toList) = eu "/a b1".toList :=
  ⟨claim_C7.1 _, claim_C7.2.1 _, claim_C7.2.2.2 _⟩

theorem dirFind_insert_some {γ : Type} {n : Str} {c : γ} :
    ∀ {d : Dir γ} (m : Str) (x : γ), dirFind d n = some c →
      dirFind (dirInsert d m x) n = some c := by
  intro d
  induction d with
  | nil => intro m x h; exact absurd h (by simp [dirFind])
  | cons e es ih =>
    intro m x h
    unfold dirInsert at ih ⊢
    rw [List.cons_append]
    by_cases hp : (e.1 == n) = true
    · rw [dirFind, if_pos hp] at h
      rw [dirFind, if_pos hp]
      exact h
    · rw [dirFind, if_neg hp] at h
      rw [dirFind, if_neg hp]
      exact ih m x h

theorem dirHas_of_mem {γ : Type} :
    ∀ {d : Dir γ} {n : Str} {c : γ}, (n, c) ∈ d → dirHas d n = true := by
  intro d
  induction d with
  | nil => intro n c h; exact absurd h (by simp)
  | cons e es ih =>
    intro n c h
    unfold dirHas
    by_cases hp : (e.1 == n) = true
    · rw [dirFind, if_pos hp]; rfl
    · rw [dirFind, if_neg hp]
      rcases List.mem_cons.mp h with h1 | h1
      · exact absurd (by rw [← h1]; simp) hp
      · exact ih h1

theorem dirHas_eq_false {γ : Type} :
    ∀ {d : Dir γ} {n : Str}, (∀ e ∈ d, e.1 ≠ n) → dirHas d n = false := by
  intro d
  induction d with
  | nil => intro n _; rfl
  | cons e es ih =>
    intro n h
    have h1 : ¬ (e.1 == n) = true := by
      simpa using h e (List.mem_cons_self e es)
    unfold dirHas
    rw [dirFind, if_neg h1]
    exact ih (fun x hx => h x (List.mem_cons_of_mem e hx))

theorem findSlot_some {free : Nat → Bool} :
    ∀ {fuel start i : Nat}, findSlot free start fuel = some i →
      start ≤ i ∧ i < start + fuel ∧ free i = true ∧
        ∀ j, start ≤ j → j < i → free j = false := by
  intro fuel
  induction fuel with
  | zero => intro start i h; simp [findSlot] at h
  | succ fuel ih =>
    intro start i h
    rw [findSlot] at h
    cases hf : free start with
    | true =>
      rw [hf] at h; simp at h
      subst h
      exact ⟨Nat.le_refl _, by omega, hf, fun j h1 h2 => absurd (Nat.lt_of_le_of_lt h1 h2) (Nat.lt_irrefl _)⟩
    | false =>
      rw [hf] at h; simp at h
      obtain ⟨h1, h2, h3, h4⟩ := ih h
      refine ⟨by omega, by omega, h3, fun j hj1 hj2 => ?_⟩
      rcases Nat.eq_or_lt_of_le hj1 with rfl | hj
      · exact hf
      · exact h4 j hj hj2

theorem findSlot_none {free : Nat → Bool} :
    ∀ {fuel start : Nat}, findSlot free start fuel = none ↔
      ∀ j, start ≤ j → j < start + fuel → free j = false := by
  intro fuel
  induction fuel with
  | zero =>
    intro start
    simp [findSlot]
    intro j h1 h2; omega
  | succ fuel ih =>
    intro start
    rw [findSlot]
    cases hf : free start with
    | true =>
      rw [if_pos rfl]
      constructor
      · intro h; exact absurd h (by simp)
      · intro h
        exact absurd (h start (Nat.le_refl _) (by omega)) (by simp [hf])
    | false =>
      rw [if_neg (by simp)]
      rw [ih]
      constructor
      · intro h j h1 h2
        rcases Nat.eq_or_lt_of_le h1 with rfl | hj
        · exact hf
        · exact h j hj (by omega)
      · intro h j h1 h2
        exact h j (by omega) (by omega)

theorem dirFind_insert_self {γ : Type} :
    ∀ {d : Dir γ} {n : Str} {c : γ}, dirHas d n = false →
      dirFind (dirInsert d n c) n = some c := by
  intro d
  induction d with
  | nil => intro n c _; simp [dirInsert, dirFind]
  | cons e es ih =>
    intro n c h
    by_cases hp : (e.1 == n) = true
    · unfold dirHas at h
      rw [dirFind, if_pos hp] at h
      exact absurd h (by simp)
    · unfold dirInsert
      rw [List.cons_append, dirFind, if_neg hp]
      apply ih
      unfold dirHas at h ⊢
      rw [dirFind, if_neg hp] at h
      exact h

theorem moveNoOverwrite_preserves {γ : Type} {d d' : Dir γ} {nm f : Str} {c : γ}
    (h : moveNoOverwrite d nm c = some (d', f)) :
    ∀ (n : Str) (x : γ), dirFind d n = some x → dirFind d' n = some x := by
  intro n x hf
  unfold moveNoOverwrite at h
  by_cases hh : dirHas d nm = false
  · rw [if_pos hh] at h
    obtain ⟨rfl, rfl⟩ : dirInsert d nm c = d' ∧ nm = f := by
      constructor <;> [exact congrArg Prod.fst (Option.some.inj h);
        exact congrArg Prod.snd (Option.some.inj h)]
    exact dirFind_insert_some _ _ hf
  · rw [if_neg hh] at h
    cases hslot : findSlot (fun i => !dirHas d (conflictName nm i)) 1 9999 with
    | none => rw [hslot] at h; exact absurd h (by simp)
    | some i =>
      rw [hslot] at h
      obtain ⟨rfl, rfl⟩ : dirInsert d (conflictName nm i) c = d' ∧ conflictName nm i = f := by
        constructor <;> [exact congrArg Prod.fst (Option.some.inj h);
          exact congrArg Prod.snd (Option.some.inj h)]
      exact dirFind_insert_some _ _ hf

theorem mergeApply_preserves {γ : Type} :
    ∀ (entries : List (Str × γ)) (new new' : Dir γ) (mvs : List (Str × Str)),
      mergeApply entries new = some (new', mvs) →
      ∀ (n : Str) (c : γ), dirFind new n = some c → dirFind new' n = some c := by
  intro entries
  induction entries with
  | nil =>
    intro new new' mvs h n c hf
    rw [mergeApply] at h
    obtain ⟨rfl, rfl⟩ : new = new' ∧ ([] : List (Str × Str)) = mvs := by
      constructor <;> [exact congrArg Prod.fst (Option.some.inj h);
        exact congrArg Prod.snd (Option.some.inj h)]
    exact hf
  | cons e rest ih =>
    intro new new' mvs h n c hf
    obtain ⟨en, ec⟩ := e
    rw [mergeApply] at h
    by_cases hh : startsWithStr en ['.'] = true
    · rw [if_pos hh] at h
      exact ih _ _ _ h n c hf
    · rw [if_neg hh] at h
      cases hm : moveNoOverwrite new en ec with
      | none => rw [hm] at h; exact absurd h (by simp)
      | some pr =>
        obtain ⟨d1, f1⟩ := pr
        rw [hm] at h
        replace h : (match mergeApply rest d1 with
          | none => none
          | some (d'', mvs') => some (d'', (en, f1) :: mvs')) = some (new', mvs) := h
        cases hrec : mergeApply rest d1 with
        | none => rw [hrec] at h; exact absurd h (by simp)
        | some pr2 =>
          obtain ⟨d2, mvs2⟩ := pr2
          rw [hrec] at h
          replace h : some (d2, (en, f1) :: mvs2) = some (new', mvs) := h
          have h1 : d2 = new' := congrArg Prod.fst (Option.some.inj h)
          rw [← h1]
          exact ih _ _ _ hrec n c (moveNoOverwrite_preserves hm n c hf)

theorem natDigitsAux_length :
    ∀ (fuel k n : Nat) (acc : Str), n < 10 ^ (k + 1) →
      (natDigitsAux fuel n acc).length ≤ (k + 1) + acc.length := by
  intro fuel
  induction fuel with
  | zero => intro k n acc _; rw [natDigitsAux]; omega
  | succ fuel ih =>
    intro k n acc h
    rw [natDigitsAux]
    by_cases h10 : n < 10
    · rw [if_pos h10]; simp; omega
    · rw [if_neg h10]
      cases k with
      | zero => exact absurd h (by simpa using h10)
      | succ k' =>
        have hdiv : n / 10 < 10 ^ (k' + 1) := by
          rw [pow_succ] at h
          exact (Nat.div_lt_iff_lt_mul (by norm_num)).mpr h
        have := ih k' (n / 10) (Char.ofNat (48 + n % 10) :: acc) hdiv
        simp only [List.length_cons] at this
        omega

theorem pad4_length_le (n : Nat) (h : n < 10000) : (pad4 n).length = 4 := by
  have hle : (natDigits n).length ≤ 4 := by
    have := natDigitsAux_length (n + 1) 3 n [] (by norm_num; omega)
    simpa [natDigits] using this
  simp only [pad4, List.length_append, List.length_replicate]
  omega

theorem conflictName_a_length (i : Nat) (h : i < 10000) :
    (conflictName "a".toList i).length = 14 := by
  have hsplit : splitExt ['a'] = (['a'], []) := by decide
  show (conflictName ['a'] i).length = 14
  rw [conflictName, hsplit]
  have h9 : (".conflict".toList : Str).length = 9 := rfl
  simp only [List.length_append, List.length_nil, List.length_cons, h9,
    pad4_length_le i h]

theorem conflictName_a_10000_length : (conflictName "a".toList 10000).length = 15 := by
  decide

theorem dBig_has_conflict {γ : Type} (c : γ) {i : Nat} (h1 : 1 ≤ i) (h2 : i ≤ 9999) :
    dirHas (dBig γ c) (conflictName "a".toList i) = true := by
  apply dirHas_of_mem (c := c)
  apply List.mem_cons_of_mem
  apply List.mem_map.mpr
  exact ⟨i, List.mem_range'_1.mpr ⟨h1, by omega⟩, rfl⟩

theorem dBig_move_none {γ : Type} (c x : γ) :
    moveNoOverwrite (dBig γ c) "a".toList x = none := by
  have hhas : dirHas (dBig γ c) ['a'] = true := rfl
  unfold moveNoOverwrite
  rw [if_neg (by simp [show ("a".toList : Str) = ['a'] from rfl, hhas])]
  have hslot :
      findSlot (fun i => !dirHas (dBig γ c) (conflictName "a".toList i)) 1 9999 = none := by
    apply findSlot_none.mpr
    intro j hj1 hj2
    simp only [Bool.not_eq_false']
    exact dBig_has_conflict c hj1 (by omega)
  rw [hslot]

theorem dBig_lacks_10000 {γ : Type} (c : γ) :
    dirHas (dBig γ c) (conflictName "a".toList 10000) = false := by
  apply dirHas_eq_false
  intro e he
  rcases List.mem_cons.mp he with h1 | h1
  · rw [h1]
    intro hcontra
    have := congrArg List.length hcontra
    rw [conflictName_a_10000_length] at this
    simp at this
  · obtain ⟨i, hi, rfl⟩ := List.mem_map.mp h1
    have hi' := List.mem_range'_1.mp hi
    intro hcontra
    have := congrArg List.length hcontra
    rw [conflictName_a_length i (by omega), conflictName_a_10000_length] at this
    omega

theorem endsWithStr_append (l p : Str) : endsWithStr (l ++ p) p = true := by
  unfold endsWithStr
  rw [List.reverse_append]
  exact startsWithStr_append _ _

theorem findIdxAux_cons_pos {p : Char → Bool} {c : Char} (l : Str) (h : p c = true) :
    findIdxAux p (c :: l) = some 0 := by
  rw [findIdxAux, if_pos h]

theorem findIdxAux_cons_neg {p : Char → Bool} {c : Char} (l : Str) (h : p c = false) :
    findIdxAux p (c :: l) = (findIdxAux p l).map (· + 1) := by
  rw [findIdxAux, if_neg (by simp [h])]

theorem splitExt_jsonl (p : Str) (hp : p ≠ []) :
    splitExt (p ++ ".jsonl".toList) = (p, ".jsonl".toList) := by
  have hfind : findIdxAux (fun c => c == '.') ((p ++ ".jsonl".toList).reverse) = some 5 := by
    rw [List.reverse_append]
    show findIdxAux (fun c => c == '.') ('l' :: 'n' :: 'o' :: 's' :: 'j' :: '.' :: p.reverse) = some 5
    rw [findIdxAux_cons_neg _ (by decide), findIdxAux_cons_neg _ (by decide),
        findIdxAux_cons_neg _ (by decide), findIdxAux_cons_neg _ (by decide),
        findIdxAux_cons_neg _ (by decide), findIdxAux_cons_pos _ (by decide)]
    rfl
  have hlen : (p ++ ".jsonl".toList).length = p.length + 6 := by simp
  have hppos : 1 ≤ p.length := List.length_pos.mpr hp
  unfold splitExt
  rw [hfind]
  dsimp only
  have hcond : ¬ (5 = 0 ∨ 5 = (p ++ ".jsonl".toList).length - 1) := by
    rw [hlen]; omega
  rw [if_neg hcond]
  have harith : (p ++ ".jsonl".toList).length - 1 - 5 = p.length := by
    rw [hlen]; omega
  rw [harith, List.take_left, List.drop_left]

/-- Claim C1 (amended): in a merge, every pre-existing destination file
keeps its content; a moved entry whose destination name is taken ends up
at the first unused zero-padded `.conflictNNNN` name with the counter
starting at 1; and the move fails exactly when the destination name and
all 9,999 conflict names `.conflict0001` through `.conflict9999` are
taken — the configured loop bound of 10,000 (`range(1, 10_000)`) is
exclusive, so 9,999 conflict names are tried, not 10,000. -/
theorem claim_C1 :
    (∀ (γ : Type) (old : List (Str × γ)) (new new' : Dir γ) (mvs : List (Str × Str)),
      mergeProjectDirs false old new = some (new', mvs) →
      ∀ (n : Str) (c : γ), dirFind new n = some c → dirFind new' n = some c) ∧
    (∀ (γ : Type) (d : Dir γ) (n : Str) (c : γ) (d' : Dir γ) (f : Str),
      dirHas d n = true → moveNoOverwrite d n c = some (d', f) →
      ∃ i, 1 ≤ i ∧ i ≤ 9999 ∧ f = conflictName n i ∧
        dirHas d (conflictName n i) = false ∧
        (∀ j, 1 ≤ j → j < i → dirHas d (conflictName n j) = true) ∧
        dirFind d' f = some c) ∧
    (∀ (γ : Type) (d : Dir γ) (n : Str) (c : γ),
      moveNoOverwrite d n c = none ↔
        (dirHas d n = true ∧
          ∀ i, 1 ≤ i → i ≤ 9999 → dirHas d (conflictName n i) = true)) := by
  refine ⟨?_, ?_, ?_⟩
  · intro γ old new new' mvs h n c hf
    simp only [mergeProjectDirs, Bool.false_eq_true, if_false] at h
    exact mergeApply_preserves _ _ _ _ h n c hf
  · intro γ d n c d' f hhas hmove
    unfold moveNoOverwrite at hmove
    rw [if_neg (by simp [hhas])] at hmove
    cases hslot : findSlot (fun i => !dirHas d (conflictName n i)) 1 9999 with
    | none => rw [hslot] at hmove; exact absurd hmove (by simp)
    | some i =>
      rw [hslot] at hmove
      have h1 : dirInsert d (conflictName n i) c = d' :=
        congrArg Prod.fst (Option.some.inj hmove)
      have h2 : conflictName n i = f := congrArg Prod.snd (Option.some.inj hmove)
      obtain ⟨hs1, hs2, hs3, hs4⟩ := findSlot_some hslot
      refine ⟨i, hs1, by omega, h2.symm, by simpa using hs3, ?_, ?_⟩
      · intro j hj1 hj2
        have := hs4 j hj1 hj2
        simpa using this
      · rw [← h1, ← h2]
        exact dirFind_insert_self (by simpa using hs3)
  · intro γ d n c
    constructor
    · intro h
      unfold moveNoOverwrite at h
      by_cases hh : dirHas d n = false
      · rw [if_pos hh] at h; exact absurd h (by simp)
      · have hh' : dirHas d n = true := by simpa using hh
        refine ⟨hh', ?_⟩
        rw [if_neg hh] at h
        cases hslot : findSlot (fun i => !dirHas d (conflictName n i)) 1 9999 with
        | some i => rw [hslot] at h; exact absurd h (by simp)
        | none =>
          intro i hi1 hi2
          have := findSlot_none.mp hslot i hi1 (by omega)
          simpa using this
    · rintro ⟨hh, hall⟩
      unfold moveNoOverwrite
      rw [if_neg (by simp [hh])]
      have hslot : findSlot (fun i => !dirHas d (conflictName n i)) 1 9999 = none :=
        findSlot_none.mpr (fun j h1 h2 => by simp [hall j h1 (by omega)])
      rw [hslot]

/-- Claim C1 counterexample: in the directory `dBig` the destination
name and the 9,999 conflict names of indices 1 through 9999 are taken
while the name `a.conflict10000` (the 10,000th conflict name of the
zero-padded incrementing scheme) is still unused, yet the move fails —
so the move does not fail "only when 10,000 conflict names are
exhausted". -/
theorem claim_C1_counterexample :
    moveNoOverwrite (dBig Str "c".toList) "a".toList "x".toList = none ∧
    1 ≤ 10000 ∧
    dirHas (dBig Str "c".toList) (conflictName "a".toList 10000) = false :=
  ⟨dBig_move_none "c".toList "x".toList, by omega, dBig_lacks_10000 "c".toList⟩

/-- Witness for C1 at concrete inputs: a merge preserves a pre-existing
destination file, a conflicting move lands on `a.conflict0001.jsonl`,
and the failure characterisation holds at `dBig`. -/
theorem claim_C1_witness :
    dirFind [("a.jsonl".toList, "X".toList), ("b.jsonl".toList, "Y".toList)]
      "a.jsonl".toList = some "X".toList ∧
    (∃ i, 1 ≤ i ∧ i ≤ 9999 ∧
      ("a.conflict0001.jsonl".toList : Str) = conflictName "a.jsonl".toList i ∧
      dirHas [("a.jsonl".toList, "X".toList)] (conflictName "a.jsonl".toList i) = false ∧
      (∀ j, 1 ≤ j → j < i →
        dirHas [("a.jsonl".toList, "X".toList)] (conflictName "a.jsonl".toList j) = true) ∧
      dirFind [("a.jsonl".toList, "X".toList),
        ("a.conflict0001.jsonl".toList, "Y".toList)] "a.conflict0001.jsonl".toList =
          some "Y".toList) ∧
    (dirHas (dBig Str "c".toList) "a".toList = true ∧
      ∀ i, 1 ≤ i → i ≤ 9999 →
        dirHas (dBig Str "c".toList) (conflictName "a".toList i) = true) :=
  ⟨claim_C1.1 Str [("b.jsonl".toList, "Y".toList)] [("a.jsonl".toList, "X".toList)]
      [("a.jsonl".toList, "X".toList), ("b.jsonl".toList, "Y".toList)]
      [("b.jsonl".toList, "b.jsonl".toList)] (by decide)
      "a.jsonl".toList "X".toList (by decide),
   claim_C1.2.1 Str [("a.jsonl".toList, "X".toList)] "a.jsonl".toList "Y".toList
      [("a.jsonl".toList, "X".toList), ("a.conflict0001.jsonl".toList, "Y".toList)]
      "a.conflict0001.jsonl".toList (by decide) (by decide),
   (claim_C1.2.2 Str (dBig Str "c".toList) "a".toList "x".toList).mp
     (dBig_move_none "c".toList "x".toList)⟩

/-- Claim C10: the `.conflictNNNN` marker is inserted between a file
name's stem and its extension, so a conflict-renamed `…​.jsonl` entry
keeps the `.jsonl` extension and still matches the `*.jsonl` pattern
used to select session record files for cwd rewriting. -/
theorem claim_C10 :
    ∀ (p : Str) (i : Nat), p ≠ [] →
      conflictName (p ++ ".jsonl".toList) i =
        p ++ ".conflict".toList ++ pad4 i ++ ".jsonl".toList ∧
      matchesJsonl (conflictName (p ++ ".jsonl".toList) i) = true := by
  intro p i hp
  have hsplit := splitExt_jsonl p hp
  have h1 : conflictName (p ++ ".jsonl".toList) i =
      p ++ ".conflict".toList ++ pad4 i ++ ".jsonl".toList := by
    rw [conflictName, hsplit]
  refine ⟨h1, ?_⟩
  rw [matchesJsonl, h1]
  have hassoc : p ++ ".conflict".toList ++ pad4 i ++ ".jsonl".toList =
      (p ++ ".conflict".toList ++ pad4 i) ++ ".jsonl".toList := by
    simp [List.append_assoc]
  rw [hassoc]
  exact endsWithStr_append _ _

/-- Witness for C10: `abc.jsonl` becomes `abc.conflict0001.jsonl`, which
still matches `*.jsonl`. -/
theorem claim_C10_witness :
    conflictName "abc.jsonl".toList 1 = "abc.conflict0001.jsonl".toList ∧
    matchesJsonl (conflictName "abc.jsonl".toList 1) = true := by
  have heq : ("abc.jsonl".toList : Str) = "abc".toList ++ ".jsonl".toList := by decide
  have h := claim_C10 "abc".toList 1 (by decide)
  constructor
  · rw [heq, h.1]; decide
  · rw [heq]; exact h.2

/-- Claim C2: the cwd rewrite is prefix-exact.  `apply_prefix_mapping`
returns `dst` when the value equals `src`; rewrites `src ++ "/" ++ suf`
to `dst ++ "/" ++ suf` with the suffix preserved verbatim; and leaves
any value untouched that is neither `src` itself nor begins with
`src ++ "/"` (in particular a value merely containing `src` as a
substring without being rooted at it). -/
theorem claim_C2 :
    (∀ value src dst : Str, value = src → apply_prefix_mapping value src dst = dst) ∧
    (∀ src dst suf : Str,
      apply_prefix_mapping (src ++ '/' :: suf) src dst = dst ++ '/' :: suf) ∧
    (∀ value src dst : Str, value ≠ src →
      startsWithStr value (src ++ ['/']) = false →
      apply_prefix_mapping value src dst = value) := by
  refine ⟨fun value src dst h => by simp [apply_prefix_mapping, h], ?_, ?_⟩
  · intro src dst suf
    have hne : src ++ '/' :: suf ≠ src := by
      intro h
      have := congrArg List.length h
      simp at this
    have hpre : startsWithStr (src ++ '/' :: suf) (src ++ ['/']) = true := by
      have : src ++ '/' :: suf = (src ++ ['/']) ++ suf := by simp
      rw [this]
      exact startsWithStr_append _ _
    simp only [apply_prefix_mapping, if_neg hne, hpre, if_pos rfl]
    rw [List.drop_append_of_le_length (by simp)]
    simp
  · intro value src dst hne hpre
    simp [apply_prefix_mapping, hne, hpre]

/-- Witness for C2 at the spec's own examples: `"/a/b/extra"` under old
path `"/a/b"` is rewritten to `"/a/b-new/extra"`, while `"/a/bextra"`
is left untouched. -/
theorem claim_C2_witness :
    apply_prefix_mapping "/a/b/extra".toList "/a/b".toList "/a/b-new".toList =
      "/a/b-new/extra".toList ∧
    apply_prefix_mapping "/a/bextra".toList "/a/b".toList "/a/b-new".toList =
      "/a/bextra".toList :=
  ⟨claim_C2.2.1 "/a/b".toList "/a/b-new".toList "extra".toList,
   claim_C2.2.2 _ _ _ (by decide) (by decide)⟩

theorem rewriteLine_passthrough {J : Type} {jf : JsonIF J} {src dst line : Str}
    (h : pyStrip line = [] ∨ jf.parse (pyStrip line) = none) :
    rewriteLine J jf src dst line = (line, false) := by
  unfold rewriteLine
  by_cases hb : pyStrip line = []
  · rw [if_pos hb]
  · rw [if_neg hb]
    rcases h with h | h
    · exact absurd h hb
    · rw [h]

theorem rewriteJsonlCwds_backup_skip (J : Type) (jf : JsonIF J) (src dst : Str)
    (content : Content) (b : Content) :
    (rewriteJsonlCwds J jf src dst false content (some b)).2.1 = some b := by
  unfold rewriteJsonlCwds
  by_cases hch : (rewriteLines J jf src dst content).any (fun r => r.2) = false
  · rw [if_pos hch]
  · rw [if_neg hch, if_neg (by simp)]

/-- Claim C6: backup-before-mutate is write-once.  Running the rewrite
twice on the same file in apply mode, starting with no backup at the
mirrored path, produces a backup exactly when one of the runs mutated
the file, and that backup equals the file's original pre-first-mutation
content; whenever a backup already exists at the mirrored path, the
backup step is skipped and the existing backup is kept. -/
theorem claim_C6 :
    ∀ (J : Type) (jf : JsonIF J) (src dst : Str) (content c1 c2 : Content)
      (b1 b2 : Option Content) (ch1 ch2 : Bool),
      rewriteJsonlCwds J jf src dst false content none = (c1, b1, ch1) →
      rewriteJsonlCwds J jf src dst false c1 b1 = (c2, b2, ch2) →
      (b2 = none → b1 = none ∧ c1 = content ∧ c2 = content ∧ ch1 = false ∧ ch2 = false) ∧
      (b2 ≠ none → b2 = some content) ∧
      (∀ b : Content, (rewriteJsonlCwds J jf src dst false content (some b)).2.1 = some b) := by
  intro J jf src dst content c1 c2 b1 b2 ch1 ch2 h1 h2
  refine ?_
  by_cases hch1 : (rewriteLines J jf src dst content).any (fun r => r.2) = false
  · rw [rewriteJsonlCwds, if_pos hch1] at h1
    obtain ⟨e1, e2, e3⟩ : content = c1 ∧ none = b1 ∧ false = ch1 := by
      simpa [Prod.ext_iff] using h1
    subst e1; subst e2; subst e3
    rw [rewriteJsonlCwds, if_pos hch1] at h2
    obtain ⟨f1, f2, f3⟩ : content = c2 ∧ (none : Option Content) = b2 ∧ false = ch2 := by
      simpa [Prod.ext_iff] using h2
    subst f1; subst f2; subst f3
    exact ⟨fun _ => ⟨rfl, rfl, rfl, rfl, rfl⟩,
      fun hne => absurd rfl hne,
      fun b => rewriteJsonlCwds_backup_skip J jf src dst content b⟩
  · rw [rewriteJsonlCwds, if_neg hch1, if_neg (by simp)] at h1
    obtain ⟨e1, e2, e3⟩ :
        (rewriteLines J jf src dst content).map (fun r => r.1) = c1 ∧
          some content = b1 ∧ true = ch1 := by
      simpa [Prod.ext_iff] using h1
    subst e2
    have hb2 : b2 = some content := by
      have := rewriteJsonlCwds_backup_skip J jf src dst c1 content
      rw [h2] at this
      exact this
    refine ⟨fun hb => absurd (hb2 ▸ hb) (by simp), fun _ => hb2,
      fun b => rewriteJsonlCwds_backup_skip J jf src dst content b⟩

/-- Witness for C6: a concrete rewrite that changes its file twice,
applied through the theorem; an existing backup is kept. -/
theorem claim_C6_witness :
    (rewriteJsonlCwds Unit ⟨fun _ => some (), fun _ => some (JVal.jstr "/a".toList),
        fun o _ => o, fun _ => "y".toList⟩ "/a".toList "/b".toList false
        ["x".toList] (some ["z".toList])).2.1 = some ["z".toList] :=
  (claim_C6 Unit ⟨fun _ => some (), fun _ => some (JVal.jstr "/a".toList),
      fun o _ => o, fun _ => "y".toList⟩ "/a".toList "/b".toList
      ["x".toList] ["y".toList] ["y".toList] (some ["x".toList]) (some ["x".toList])
      true true (by decide) (by decide)).2.2 ["z".toList]

/-- Claim C3: at a destination that exists on disk but is **not** a
directory (host `exists` true, host `is_dir` false), the code still
accepts the mapping as a migration candidate, while the claimed filter
("new_path exists as a real directory") excludes it. -/
theorem claim_C3 :
    candidatesOf [("/old".toList, "/dst".toList)]
        (fun _ => true) (fun _ => true) (fun _ => true) =
      [("/old".toList, "/dst".toList)] ∧
    candidatesSpec [("/old".toList, "/dst".toList)]
        (fun _ => true) (fun _ => true) (fun _ => true) (fun _ => false) = [] := by
  constructor <;> rfl

theorem rewriteStepWorld_dry (J : Type) (jf : JsonIF J) (src dst newName f : Str)
    (w : World) : rewriteStepWorld J jf true src dst newName f w = w := rfl

theorem rewritePhase_dry (J : Type) (jf : JsonIF J) (src dst newName : Str) :
    ∀ (files : List Str) (w : World),
      (rewritePhase J jf true src dst newName files w).1 = w := by
  intro files
  induction files with
  | nil => intro w; rfl
  | cons f fs ih =>
    intro w
    rw [rewritePhase]
    simp [ih, rewriteStepWorld_dry]

theorem mkdirStep_dry (n : Str) (w : World) : mkdirStep true n w = w := rfl

theorem processOneCandidate_dry_world (J : Type) (jf : JsonIF J) (src dst : Str)
    (w : World) : (processOneCandidate J jf true src dst w).1 = w := by
  unfold processOneCandidate
  simp [mergeProjectDirs, rewritePhase_dry, mkdirStep_dry]

theorem processOneCandidate_dry_err (J : Type) (jf : JsonIF J) (src dst : Str)
    (w : World) : (processOneCandidate J jf true src dst w).2.2.2 = none := by
  unfold processOneCandidate
  simp [mergeProjectDirs, mkdirStep_dry]

theorem processCandidates_dry (J : Type) (jf : JsonIF J) :
    ∀ (cands : List (Str × Str)) (w : World),
      processCandidates J jf true cands w = (w, none) := by
  intro cands
  induction cands with
  | nil => intro w; rfl
  | cons pr rest ih =>
    intro w
    obtain ⟨src, dst⟩ := pr
    rw [processCandidates]
    simp only [processOneCandidate_dry_err]
    rw [processOneCandidate_dry_world]
    exact ih w

theorem setupWorld_dry (me ce pp : Bool) (w : World) :
    setupWorld true me ce pp w = w := rfl

/-- Claim C5: a dry run performs no filesystem mutation at all — for
every input, the world (archive tree, symlinks, run directory, ledger
copies, backups, audit log, symlink archive) after a dry run is exactly
the initial world. -/
theorem claim_C5 :
    ∀ (J : Type) (jf : JsonIF J) (movesExists correctionsExists pairsProvided : Bool)
      (mapping : List (Str × Str)) (hostEx : Str → Bool) (archiveFlag : Bool)
      (w : World),
      (runMain J jf movesExists correctionsExists pairsProvided mapping hostEx
        archiveFlag true w).1 = w := by
  intro J jf me ce pp mapping hostEx af w
  unfold runMain
  by_cases h0 : me = false ∧ pp = false
  · rw [if_pos h0]
  · rw [if_neg h0]
    by_cases hc : candidatesOf mapping (fun n => dirHas w.projects n)
        (fun n => dirHas w.projects n) hostEx = []
    · rw [if_pos hc, setupWorld_dry]
    · rw [if_neg hc, setupWorld_dry, processCandidates_dry]
      by_cases haf : af = true
      · subst haf; rfl
      · have haf' : af = false := by
          cases af
          · rfl
          · exact absurd rfl haf
        subst haf'; rfl

/-- Witness for C5 at a concrete world and input. -/
theorem claim_C5_witness :
    (runMain Unit ⟨fun _ => none, fun _ => none, fun o _ => o, fun _ => []⟩
      true false false [("/old".toList, "/new".toList)] (fun _ => true) true true
      ⟨[(eu "/old".toList, [("a.jsonl".toList, ["x".toList])])], [], false, [], [], [],
        []⟩).1 =
      ⟨[(eu "/old".toList, [("a.jsonl".toList, ["x".toList])])], [], false, [], [], [],
        []⟩ :=
  claim_C5 Unit ⟨fun _ => none, fun _ => none, fun o _ => o, fun _ => []⟩
    true false false [("/old".toList, "/new".toList)] (fun _ => true) true
    ⟨[(eu "/old".toList, [("a.jsonl".toList, ["x".toList])])], [], false, [], [], [], []⟩

theorem processOneCandidate_err (J : Type) (jf : JsonIF J) (dry : Bool) (src dst : Str)
    (w : World) :
    (processOneCandidate J jf dry src dst w).2.2.2 = none ∨
      (processOneCandidate J jf dry src dst w).2.2.2 = some MigError.conflictOverflow := by
  unfold processOneCandidate
  dsimp only
  cases hm : mergeProjectDirs dry
      ((dirFind (mkdirStep dry (eu dst) w).projects (eu src)).getD [])
      ((dirFind (mkdirStep dry (eu dst) w).projects (eu dst)).getD []) with
  | none => exact Or.inr rfl
  | some pr =>
    obtain ⟨d1, mvs⟩ := pr
    exact Or.inl rfl

theorem archiveSymlinksRun_err (dry : Bool) (w : World) :
    (archiveSymlinksRun dry w).2 = none ∨
      (archiveSymlinksRun dry w).2 = some MigError.conflictOverflow := by
  unfold archiveSymlinksRun
  by_cases hd : dry = true
  · rw [if_pos hd]; exact Or.inl rfl
  · rw [if_neg hd]
    cases hm : mergeApply (sortByLe (fun a b => lexLe a.1 b.1) w.symlinks) w.archivedLinks with
    | none => exact Or.inr rfl
    | some pr =>
      obtain ⟨arch, mvs⟩ := pr
      exact Or.inl rfl

theorem processCandidates_err (J : Type) (jf : JsonIF J) (dry : Bool) :
    ∀ (cands : List (Str × Str)) (w : World),
      (processCandidates J jf dry cands w).2 = none ∨
        (processCandidates J jf dry cands w).2 = some MigError.conflictOverflow := by
  intro cands
  induction cands with
  | nil => intro w; exact Or.inl rfl
  | cons pr rest ih =>
    intro w
    obtain ⟨src, dst⟩ := pr
    rw [processCandidates]
    rcases processOneCandidate_err J jf dry src dst w with h | h
    · rw [h]
      exact ih _
    · rw [h]
      exact Or.inr rfl

theorem finishRun_classify (af dry : Bool) (pc : World × Option MigError)
    (h : pc.2 = none ∨ pc.2 = some MigError.conflictOverflow) :
    (finishRun af dry pc).2 = Except.ok 0 ∨
      (finishRun af dry pc).2 = Except.error MigError.conflictOverflow := by
  obtain ⟨w, e⟩ := pc
  rcases h with h | h <;> simp only at h <;> subst h
  · unfold finishRun
    by_cases haf : af = true
    · rw [if_pos haf]
      dsimp only
      rcases archiveSymlinksRun_err dry w with h1 | h1
      · rw [h1]; exact Or.inl rfl
      · rw [h1]; exact Or.inr rfl
    · rw [if_neg haf]; exact Or.inl rfl
  · exact Or.inr rfl

theorem runMain_noLedger (J : Type) (jf : JsonIF J) (ce : Bool)
    (mapping : List (Str × Str)) (hostEx : Str → Bool) (af dry : Bool) (w : World) :
    runMain J jf false ce false mapping hostEx af dry w =
      (w, Except.error MigError.noLedger) := by
  unfold runMain
  rw [if_pos ⟨rfl, rfl⟩]

theorem runMain_classify (J : Type) (jf : JsonIF J) (me ce pp : Bool)
    (mapping : List (Str × Str)) (hostEx : Str → Bool) (af dry : Bool) (w : World)
    (h0 : ¬(me = false ∧ pp = false)) :
    (runMain J jf me ce pp mapping hostEx af dry w).2 = Except.ok 0 ∨
      (runMain J jf me ce pp mapping hostEx af dry w).2 =
        Except.error MigError.conflictOverflow := by
  unfold runMain
  rw [if_neg h0]
  by_cases hc : candidatesOf mapping (fun n => dirHas w.projects n)
      (fun n => dirHas w.projects n) hostEx = []
  · rw [if_pos hc]; exact Or.inl rfl
  · rw [if_neg hc]
    exact finishRun_classify _ _ _ (processCandidates_err J jf dry _ _)

/-- Claim C9 (amended): the run returns status 0 whenever it completes
(also with zero actionable candidates); it aborts with the
missing-ledger `SystemExit` — before any mutation, leaving the world
untouched — exactly when the moves ledger is absent and no manual pair
was supplied; and the only other non-zero exit is the propagated
`RuntimeError` when a move exhausts the conflict-name space. -/
theorem claim_C9 :
    (∀ (J : Type) (jf : JsonIF J) (me ce pp : Bool) (mapping : List (Str × Str))
        (hostEx : Str → Bool) (af dry : Bool) (w : World) (n : Nat),
      (runMain J jf me ce pp mapping hostEx af dry w).2 = Except.ok n → n = 0) ∧
    (∀ (J : Type) (jf : JsonIF J) (me ce pp : Bool) (mapping : List (Str × Str))
        (hostEx : Str → Bool) (af dry : Bool) (w : World),
      (runMain J jf me ce pp mapping hostEx af dry w).2 =
          Except.error MigError.noLedger ↔ (me = false ∧ pp = false)) ∧
    (∀ (J : Type) (jf : JsonIF J) (ce : Bool) (mapping : List (Str × Str))
        (hostEx : Str → Bool) (af dry : Bool) (w : World),
      runMain J jf false ce false mapping hostEx af dry w =
        (w, Except.error MigError.noLedger)) := by
  refine ⟨?_, ?_, ?_⟩
  · intro J jf me ce pp mapping hostEx af dry w n h
    by_cases h0 : me = false ∧ pp = false
    · obtain ⟨h1, h2⟩ := h0
      subst h1; subst h2
      rw [runMain_noLedger] at h
      exact absurd h (by simp)
    · rcases runMain_classify J jf me ce pp mapping hostEx af dry w h0 with hr | hr <;>
        rw [hr] at h
      · exact (Except.ok.inj h).symm
      · exact absurd h (by simp)
  · intro J jf me ce pp mapping hostEx af dry w
    constructor
    · intro h
      by_cases h0 : me = false ∧ pp = false
      · exact h0
      · rcases runMain_classify J jf me ce pp mapping hostEx af dry w h0 with hr | hr <;>
          rw [hr] at h
        · exact absurd h (by simp)
        · exact absurd (Except.error.inj h) (by simp)
    · rintro ⟨h1, h2⟩
      subst h1; subst h2
      rw [runMain_noLedger]
  · intro J jf ce mapping hostEx af dry w
    exact runMain_noLedger J jf ce mapping hostEx af dry w

/-- Witness for C9: a run with the ledger present and no candidate
returns status 0; a run with the ledger missing and no pairs aborts
with the missing-ledger error and an untouched world. -/
theorem claim_C9_witness :
    (0 : Nat) = 0 ∧
    ((runMain Unit ⟨fun _ => none, fun _ => none, fun o _ => o, fun _ => []⟩
        false false false [] (fun _ => true) false false
        ⟨[], [], false, [], [], [], []⟩).2 = Except.error MigError.noLedger ↔
      (false = false ∧ false = false)) ∧
    runMain Unit ⟨fun _ => none, fun _ => none, fun o _ => o, fun _ => []⟩
        false false false [] (fun _ => true) false false
        ⟨[], [], false, [], [], [], []⟩ =
      (⟨[], [], false, [], [], [], []⟩, Except.error MigError.noLedger) :=
  ⟨claim_C9.1 Unit ⟨fun _ => none, fun _ => none, fun o _ => o, fun _ => []⟩
      true false true [] (fun _ => true) false false ⟨[], [], false, [], [], [], []⟩
      0 (by rfl),
   claim_C9.2.1 Unit ⟨fun _ => none, fun _ => none, fun o _ => o, fun _ => []⟩
      false false false [] (fun _ => true) false false ⟨[], [], false, [], [], [], []⟩,
   claim_C9.2.2 Unit ⟨fun _ => none, fun _ => none, fun o _ => o, fun _ => []⟩
      false [] (fun _ => true) false false ⟨[], [], false, [], [], [], []⟩⟩

theorem wCE_merge_none :
    mergeProjectDirs false [("a".toList, ["x".toList])] (dBig Content ["c".toList]) = none := by
  unfold mergeProjectDirs
  dsimp only
  rw [if_neg (by decide)]
  rw [show sortByLe (fun (a b : Str × Content) => lexLe a.1 b.1)
      [("a".toList, ["x".toList])] = [("a".toList, ["x".toList])] from rfl]
  rw [mergeApply]
  rw [if_neg (by decide)]
  rw [dBig_move_none]

theorem finishRun_err (af dry : Bool) (pc : World × Option MigError) (e : MigError)
    (h : pc.2 = some e) : (finishRun af dry pc).2 = Except.error e := by
  obtain ⟨w, e'⟩ := pc
  simp only at h
  subst h
  rfl

theorem processCandidates_single_overflow (J : Type) (jf : JsonIF J) (src dst : Str)
    (w : World)
    (h : (processOneCandidate J jf false src dst w).2.2.2 = some MigError.conflictOverflow) :
    (processCandidates J jf false [(src, dst)] w).2 = some MigError.conflictOverflow := by
  rw [processCandidates]
  rw [h]

theorem wCE_candidate_overflow (J : Type) (jf : JsonIF J) (w : World)
    (hw : w.projects = wCE.projects) :
    (processOneCandidate J jf false "/old".toList "/new".toList w).2.2.2 =
      some MigError.conflictOverflow := by
  have h1 : dirHas w.projects (eu "/new".toList) = true := by rw [hw]; rfl
  have hmk : mkdirStep false (eu "/new".toList) w = w := by
    unfold mkdirStep
    rw [if_neg (by decide), if_pos h1]
  unfold processOneCandidate
  dsimp only
  rw [hmk]
  rw [hw]
  rw [show (dirFind wCE.projects (eu "/old".toList)).getD [] =
    [("a".toList, ["x".toList])] from rfl]
  rw [show (dirFind wCE.projects (eu "/new".toList)).getD [] =
    dBig Content ["c".toList] from rfl]
  rw [wCE_merge_none]

/-- Claim C9 counterexample: a run whose moves ledger is present (so the
claimed only-non-zero condition does not hold) aborts with a non-zero
exit because a merge exhausts the conflict-name space in `wCE`. -/
theorem claim_C9_counterexample :
    (runMain Unit jfU true false false [("/old".toList, "/new".toList)] (fun _ => true)
        false false wCE).2 = Except.error MigError.conflictOverflow ∧
    (true : Bool) ≠ false := by
  refine ⟨?_, by decide⟩
  unfold runMain
  rw [if_neg (by decide)]
  rw [show candidatesOf [("/old".toList, "/new".toList)]
      (fun n => dirHas wCE.projects n) (fun n => dirHas wCE.projects n)
      (fun _ => true) = [("/old".toList, "/new".toList)] from rfl]
  rw [if_neg (by decide)]
  apply finishRun_err
  apply processCandidates_single_overflow
  apply wCE_candidate_overflow
  rfl

theorem dirFind_insert_ne {γ : Type} {n m : Str} (hne : n ≠ m) :
    ∀ (d : Dir γ) (x : γ), dirFind (dirInsert d m x) n = dirFind d n := by
  intro d x
  induction d with
  | nil =>
    simp only [dirInsert, List.nil_append, dirFind]
    rw [if_neg (by simpa using fun h => hne h.symm)]
  | cons e es ih =>
    unfold dirInsert at ih ⊢
    rw [List.cons_append]
    by_cases hp : (e.1 == n) = true
    · rw [dirFind, if_pos hp, dirFind, if_pos hp]
    · rw [dirFind, if_neg hp, dirFind, if_neg hp]
      exact ih

theorem dirFind_dirSet_self {γ : Type} {c : γ} :
    ∀ {d : Dir γ} {n : Str}, dirHas d n = true → dirFind (dirSet d n c) n = some c := by
  intro d
  induction d with
  | nil => intro n h; exact absurd h (by simp [dirHas, dirFind])
  | cons e es ih =>
    intro n h
    by_cases hp : (e.1 == n) = true
    · simp only [dirSet, List.map_cons, if_pos hp]
      rw [dirFind, if_pos hp]
    · unfold dirHas at h
      rw [dirFind, if_neg hp] at h
      simp only [dirSet, List.map_cons, if_neg hp]
      rw [dirFind, if_neg hp]
      exact ih h

theorem dirFind_dirSet_ne {γ : Type} {c : γ} {n m : Str} (hne : m ≠ n) :
    ∀ (d : Dir γ), dirFind (dirSet d n c) m = dirFind d m := by
  intro d
  induction d with
  | nil => rfl
  | cons e es ih =>
    by_cases hp : (e.1 == n) = true
    · have hpm : (e.1 == m) = false := by
        have h1 : e.1 = n := by simpa using hp
        rw [h1]
        simp only [beq_eq_false_iff_ne, ne_eq]
        exact fun h => hne h.symm
      simp only [dirSet, List.map_cons, if_pos hp]
      rw [dirFind, if_neg (by simp [hpm]), dirFind, if_neg (by simp [hpm])]
      exact ih
    · simp only [dirSet, List.map_cons, if_neg hp]
      by_cases hm : (e.1 == m) = true
      · rw [dirFind, if_pos hm, dirFind, if_pos hm]
      · rw [dirFind, if_neg hm, dirFind, if_neg hm]
        exact ih

theorem dirHas_dirSet {γ : Type} {c : γ} :
    ∀ (d : Dir γ) (n m : Str), dirHas (dirSet d n c) m = dirHas d m := by
  intro d n m
  induction d with
  | nil => rfl
  | cons e es ih =>
    unfold dirHas
    by_cases hp : (e.1 == n) = true
    · simp only [dirSet, List.map_cons, if_pos hp]
      by_cases hm : (e.1 == m) = true
      · rw [dirFind, if_pos hm, dirFind, if_pos hm]; rfl
      · rw [dirFind, if_neg hm, dirFind, if_neg hm]
        exact ih
    · simp only [dirSet, List.map_cons, if_neg hp]
      by_cases hm : (e.1 == m) = true
      · rw [dirFind, if_pos hm, dirFind, if_pos hm]
      · rw [dirFind, if_neg hm, dirFind, if_neg hm]
        exact ih

theorem dirFind_append_left {γ : Type} {n : Str} :
    ∀ {d : Dir γ} (d₂ : Dir γ), dirHas d n = true → dirFind (d ++ d₂) n = dirFind d n := by
  intro d
  induction d with
  | nil => intro d₂ h; exact absurd h (by simp [dirHas, dirFind])
  | cons e es ih =>
    intro d₂ h
    rw [List.cons_append]
    by_cases hp : (e.1 == n) = true
    · rw [dirFind, if_pos hp, dirFind, if_pos hp]
    · unfold dirHas at h
      rw [dirFind, if_neg hp] at h
      rw [dirFind, if_neg hp, dirFind, if_neg hp]
      exact ih d₂ h

theorem names_mem_dirHas {γ : Type} {d : Dir γ} {n : Str}
    (h : n ∈ d.map Prod.fst) : dirHas d n = true := by
  obtain ⟨e, he, hfst⟩ := List.mem_map.mp h
  obtain ⟨a, b⟩ := e
  simp only at hfst
  subst hfst
  exact dirHas_of_mem he

theorem mkdirStep_has (nn : Str) (w : World) :
    dirHas (mkdirStep false nn w).projects nn = true := by
  unfold mkdirStep
  rw [if_neg (by decide)]
  by_cases h : dirHas w.projects nn = true
  · rw [if_pos h]; exact h
  · have h' : dirHas w.projects nn = false := by
      cases hh : dirHas w.projects nn
      · rfl
      · exact absurd hh h
    rw [if_neg h]
    simp only
    unfold dirHas
    rw [dirFind_insert_self h']
    rfl

theorem mkdirStep_find_old {oldN nn : Str} (hne : oldN ≠ nn) (w : World) :
    dirFind (mkdirStep false nn w).projects oldN = dirFind w.projects oldN := by
  unfold mkdirStep
  rw [if_neg (by decide)]
  by_cases h : dirHas w.projects nn = true
  · rw [if_pos h]
  · rw [if_neg h]
    simp only
    exact dirFind_insert_ne hne _ _

theorem mkdirStep_find_new (nn : Str) (w : World) :
    (dirFind (mkdirStep false nn w).projects nn).getD [] =
      (dirFind w.projects nn).getD [] := by
  unfold mkdirStep
  rw [if_neg (by decide)]
  by_cases h : dirHas w.projects nn = true
  · rw [if_pos h]
  · have h' : dirHas w.projects nn = false := by
      cases hh : dirHas w.projects nn
      · rfl
      · exact absurd hh h
    rw [if_neg h]
    simp only
    rw [dirFind_insert_self h']
    unfold dirHas at h'
    cases hf : dirFind w.projects nn with
    | none => rfl
    | some x => rw [hf] at h'; exact absurd h' (by simp)

theorem moveNoOverwrite_spec {γ : Type} {d d' : Dir γ} {n f : Str} {c : γ}
    (h : moveNoOverwrite d n c = some (d', f)) :
    d' = dirInsert d f c ∧ dirHas d f = false := by
  unfold moveNoOverwrite at h
  by_cases hh : dirHas d n = false
  · rw [if_pos hh] at h
    have h1 : dirInsert d n c = d' := congrArg Prod.fst (Option.some.inj h)
    have h2 : n = f := congrArg Prod.snd (Option.some.inj h)
    subst h2
    exact ⟨h1.symm, hh⟩
  · rw [if_neg hh] at h
    cases hslot : findSlot (fun i => !dirHas d (conflictName n i)) 1 9999 with
    | none => rw [hslot] at h; exact absurd h (by simp)
    | some i =>
      rw [hslot] at h
      have h1 : dirInsert d (conflictName n i) c = d' :=
        congrArg Prod.fst (Option.some.inj h)
      have h2 : conflictName n i = f := congrArg Prod.snd (Option.some.inj h)
      subst h2
      obtain ⟨_, _, hs3, _⟩ := findSlot_some hslot
      exact ⟨h1.symm, by simpa using hs3⟩

theorem mergeApply_length {γ : Type} :
    ∀ (entries : List (Str × γ)) (new d' : Dir γ) (mvs : List (Str × Str)),
      mergeApply entries new = some (d', mvs) →
      mvs.length = (entries.filter (fun e => !startsWithStr e.1 ['.'])).length := by
  intro entries
  induction entries with
  | nil =>
    intro new d' mvs h
    rw [mergeApply] at h
    have : ([] : List (Str × Str)) = mvs := congrArg Prod.snd (Option.some.inj h)
    rw [← this]
    rfl
  | cons e rest ih =>
    intro new d' mvs h
    obtain ⟨en, ec⟩ := e
    rw [mergeApply] at h
    by_cases hh : startsWithStr en ['.'] = true
    · rw [if_pos hh] at h
      rw [List.filter_cons_of_neg (by simp [hh])]
      exact ih _ _ _ h
    · rw [if_neg hh] at h
      cases hm : moveNoOverwrite new en ec with
      | none => rw [hm] at h; exact absurd h (by simp)
      | some pr =>
        obtain ⟨d1, f1⟩ := pr
        rw [hm] at h
        replace h : (match mergeApply rest d1 with
          | none => none
          | some (d'', mvs') => some (d'', (en, f1) :: mvs')) = some (d', mvs) := h
        cases hrec : mergeApply rest d1 with
        | none => rw [hrec] at h; exact absurd h (by simp)
        | some pr2 =>
          obtain ⟨d2, mvs2⟩ := pr2
          rw [hrec] at h
          replace h : some (d2, (en, f1) :: mvs2) = some (d', mvs) := h
          have h2 : (en, f1) :: mvs2 = mvs := congrArg Prod.snd (Option.some.inj h)
          rw [← h2]
          rw [List.filter_cons_of_pos (by simp [hh])]
          simp only [List.length_cons]
          rw [ih _ _ _ hrec]

theorem mergeApply_append {γ : Type} :
    ∀ (entries : List (Str × γ)) (new d' : Dir γ) (mvs : List (Str × Str)),
      mergeApply entries new = some (d', mvs) → ∃ added, d' = new ++ added := by
  intro entries
  induction entries with
  | nil =>
    intro new d' mvs h
    rw [mergeApply] at h
    have : new = d' := congrArg Prod.fst (Option.some.inj h)
    exact ⟨[], by rw [← this, List.append_nil]⟩
  | cons e rest ih =>
    intro new d' mvs h
    obtain ⟨en, ec⟩ := e
    rw [mergeApply] at h
    by_cases hh : startsWithStr en ['.'] = true
    · rw [if_pos hh] at h
      exact ih _ _ _ h
    · rw [if_neg hh] at h
      cases hm : moveNoOverwrite new en ec with
      | none => rw [hm] at h; exact absurd h (by simp)
      | some pr =>
        obtain ⟨d1, f1⟩ := pr
        rw [hm] at h
        replace h : (match mergeApply rest d1 with
          | none => none
          | some (d'', mvs') => some (d'', (en, f1) :: mvs')) = some (d', mvs) := h
        cases hrec : mergeApply rest d1 with
        | none => rw [hrec] at h; exact absurd h (by simp)
        | some pr2 =>
          obtain ⟨d2, mvs2⟩ := pr2
          rw [hrec] at h
          replace h : some (d2, (en, f1) :: mvs2) = some (d', mvs) := h
          have h1 : d2 = d' := congrArg Prod.fst (Option.some.inj h)
          obtain ⟨added2, ha⟩ := ih _ _ _ hrec
          obtain ⟨hd1, _⟩ := moveNoOverwrite_spec hm
          refine ⟨[(f1, ec)] ++ added2, ?_⟩
          rw [← h1, ha, hd1]
          simp [dirInsert]

theorem mergeApply_names_nodup {γ : Type} :
    ∀ (entries : List (Str × γ)) (new d' : Dir γ) (mvs : List (Str × Str)),
      (new.map Prod.fst).Nodup → mergeApply entries new = some (d', mvs) →
      (d'.map Prod.fst).Nodup := by
  intro entries
  induction entries with
  | nil =>
    intro new d' mvs hn h
    rw [mergeApply] at h
    have : new = d' := congrArg Prod.fst (Option.some.inj h)
    rw [← this]
    exact hn
  | cons e rest ih =>
    intro new d' mvs hn h
    obtain ⟨en, ec⟩ := e
    rw [mergeApply] at h
    by_cases hh : startsWithStr en ['.'] = true
    · rw [if_pos hh] at h
      exact ih _ _ _ hn h
    · rw [if_neg hh] at h
      cases hm : moveNoOverwrite new en ec with
      | none => rw [hm] at h; exact absurd h (by simp)
      | some pr =>
        obtain ⟨d1, f1⟩ := pr
        rw [hm] at h
        replace h : (match mergeApply rest d1 with
          | none => none
          | some (d'', mvs') => some (d'', (en, f1) :: mvs')) = some (d', mvs) := h
        cases hrec : mergeApply rest d1 with
        | none => rw [hrec] at h; exact absurd h (by simp)
        | some pr2 =>
          obtain ⟨d2, mvs2⟩ := pr2
          rw [hrec] at h
          replace h : some (d2, (en, f1) :: mvs2) = some (d', mvs) := h
          have h1 : d2 = d' := congrArg Prod.fst (Option.some.inj h)
          obtain ⟨hd1, hfree⟩ := moveNoOverwrite_spec hm
          have hn1 : (d1.map Prod.fst).Nodup := by
            rw [hd1]
            unfold dirInsert
            rw [List.map_append]
            rw [List.nodup_append]
            refine ⟨hn, by simp, ?_⟩
            intro a ha hb
            simp only [List.map_cons, List.map_nil, List.mem_cons,
              List.not_mem_nil, or_false] at hb
            subst hb
            have := names_mem_dirHas ha
            rw [hfree] at this
            exact Bool.noConfusion this
          rw [← h1]
          exact ih _ _ _ hn1 hrec

theorem insertLe_perm {α : Type} (le : α → α → Bool) (a : α) :
    ∀ (l : List α), (insertLe le a l).Perm (a :: l) := by
  intro l
  induction l with
  | nil => exact List.Perm.refl _
  | cons b bs ih =>
    rw [insertLe]
    by_cases h : le a b = true
    · rw [if_pos h]
    · rw [if_neg h]
      exact ((ih.cons b).trans (List.Perm.swap a b bs)).symm.symm

theorem sortByLe_perm {α : Type} (le : α → α → Bool) :
    ∀ (l : List α), (sortByLe le l).Perm l := by
  intro l
  induction l with
  | nil => exact List.Perm.refl _
  | cons a as ih =>
    rw [sortByLe]
    exact (insertLe_perm le a (sortByLe le as)).trans (ih.cons a)

theorem rewriteJsonlCwds_changed (J : Type) (jf : JsonIF J) (src dst : Str) (dry : Bool)
    (content : Content) (bk : Option Content) :
    (rewriteJsonlCwds J jf src dst dry content bk).2.2 =
      (rewriteLines J jf src dst content).any (fun r => r.2) := by
  unfold rewriteJsonlCwds
  by_cases hch : (rewriteLines J jf src dst content).any (fun r => r.2) = false
  · rw [if_pos hch]
    exact hch.symm
  · rw [if_neg hch]
    have hch' : (rewriteLines J jf src dst content).any (fun r => r.2) = true := by
      cases h : (rewriteLines J jf src dst content).any (fun r => r.2)
      · exact absurd h hch
      · rfl
    by_cases hd : dry = true
    · rw [if_pos hd]
      exact hch'.symm
    · rw [if_neg hd]
      exact hch'.symm

theorem rewritePhase_dry_count (J : Type) (jf : JsonIF J) (src dst nn : Str) :
    ∀ (files : List Str) (w : World),
      (rewritePhase J jf true src dst nn files w).2 =
        files.countP (fileChanged J jf src dst ((dirFind w.projects nn).getD [])) := by
  intro files
  induction files with
  | nil => intro w; rfl
  | cons f fs ih =>
    intro w
    rw [rewritePhase, List.countP_cons]
    rw [rewriteStepWorld_dry]
    rw [ih w]
    rw [show (rewriteJsonlCwds J jf src dst true
      ((dirFind ((dirFind w.projects nn).getD []) f).getD [])
      (dirFind w.backups (nn ++ '/' :: f))).2.2 =
        fileChanged J jf src dst ((dirFind w.projects nn).getD []) f from
      rewriteJsonlCwds_changed J jf src dst true _ _]
    cases fileChanged J jf src dst ((dirFind w.projects nn).getD []) f
    · simp
    · simp [Nat.add_comm]

theorem rewriteStepWorld_has (J : Type) (jf : JsonIF J) (src dst nn f m : Str)
    (w : World) :
    dirHas (rewriteStepWorld J jf false src dst nn f w).projects m =
      dirHas w.projects m := by
  unfold rewriteStepWorld
  dsimp only
  rw [if_neg (by decide)]
  by_cases hflag : (rewriteJsonlCwds J jf src dst false
      ((dirFind ((dirFind w.projects nn).getD []) f).getD [])
      (dirFind w.backups (nn ++ '/' :: f))).2.2 = true
  · rw [if_pos hflag]
    exact dirHas_dirSet _ _ _
  · rw [if_neg hflag]

theorem rewriteStepWorld_other (J : Type) (jf : JsonIF J) (src dst nn f x : Str)
    (w : World) (hne : x ≠ f) (hhas : dirHas w.projects nn = true) :
    dirFind ((dirFind (rewriteStepWorld J jf false src dst nn f w).projects nn).getD []) x
      = dirFind ((dirFind w.projects nn).getD []) x := by
  unfold rewriteStepWorld
  dsimp only
  rw [if_neg (by decide)]
  by_cases hflag : (rewriteJsonlCwds J jf src dst false
      ((dirFind ((dirFind w.projects nn).getD []) f).getD [])
      (dirFind w.backups (nn ++ '/' :: f))).2.2 = true
  · rw [if_pos hflag]
    simp only
    rw [dirFind_dirSet_self hhas]
    simp only [Option.getD_some]
    exact dirFind_dirSet_ne hne _
  · rw [if_neg hflag]

theorem rewritePhase_apply_count (J : Type) (jf : JsonIF J) (src dst nn : Str) :
    ∀ (files : List Str) (w : World),
      dirHas w.projects nn = true → files.Nodup →
      (rewritePhase J jf false src dst nn files w).2 =
        files.countP (fileChanged J jf src dst ((dirFind w.projects nn).getD [])) := by
  intro files
  induction files with
  | nil => intro w _ _; rfl
  | cons f fs ih =>
    intro w hhas hnd
    rw [rewritePhase, List.countP_cons]
    have hnd' : fs.Nodup := (List.nodup_cons.mp hnd).2
    have hfmem : f ∉ fs := (List.nodup_cons.mp hnd).1
    rw [ih (rewriteStepWorld J jf false src dst nn f w)
      (by rw [rewriteStepWorld_has]; exact hhas) hnd']
    have hcong :
        fs.countP (fileChanged J jf src dst
          ((dirFind (rewriteStepWorld J jf false src dst nn f w).projects nn).getD [])) =
        fs.countP (fileChanged J jf src dst ((dirFind w.projects nn).getD [])) := by
      apply List.countP_congr
      intro x hx
      have hxne : x ≠ f := fun he => hfmem (he ▸ hx)
      unfold fileChanged
      rw [rewriteStepWorld_other J jf src dst nn f x w hxne hhas]
    rw [hcong]
    rw [show (rewriteJsonlCwds J jf src dst false
      ((dirFind ((dirFind w.projects nn).getD []) f).getD [])
      (dirFind w.backups (nn ++ '/' :: f))).2.2 =
        fileChanged J jf src dst ((dirFind w.projects nn).getD []) f from
      rewriteJsonlCwds_changed J jf src dst false _ _]
    cases fileChanged J jf src dst ((dirFind w.projects nn).getD []) f
    · simp
    · simp [Nat.add_comm]

theorem mergeProjectDirs_apply_eq {γ : Type} (old : List (Str × γ)) (new : Dir γ) :
    mergeProjectDirs false old new =
      mergeApply (sortByLe (fun a b => lexLe a.1 b.1) old) new := by
  unfold mergeProjectDirs
  dsimp only
  rw [if_neg (by decide)]

theorem mergeProjectDirs_dry_eq {γ : Type} (old : List (Str × γ)) (new : Dir γ) :
    mergeProjectDirs true old new =
      some (new, ((sortByLe (fun a b => lexLe a.1 b.1) old).filter
        (fun e => !startsWithStr e.1 ['.'])).map (fun e => (e.1, e.1))) := by
  unfold mergeProjectDirs
  dsimp only
  rw [if_pos rfl]

theorem processOneCandidate_dry_moved (J : Type) (jf : JsonIF J) (src dst : Str)
    (w : World) :
    (processOneCandidate J jf true src dst w).2.1 =
      (((sortByLe (fun a b => lexLe a.1 b.1) ((dirFind w.projects (eu src)).getD [])).filter
        (fun e => !startsWithStr e.1 ['.']))).length := by
  unfold processOneCandidate
  dsimp only
  rw [mkdirStep_dry, mergeProjectDirs_dry_eq]
  dsimp only
  rw [List.length_map]

theorem processOneCandidate_dry_rewrites (J : Type) (jf : JsonIF J) (src dst : Str)
    (w : World) :
    (processOneCandidate J jf true src dst w).2.2.1 =
      (globJsonl ((dirFind w.projects (eu dst)).getD [])).countP
        (fileChanged J jf src dst ((dirFind w.projects (eu dst)).getD [])) := by
  unfold processOneCandidate
  dsimp only
  rw [mkdirStep_dry, mergeProjectDirs_dry_eq]
  dsimp only
  simp only [eq_self_iff_true, ite_true]
  rw [rewritePhase_dry_count]

theorem globJsonl_nodup {γ : Type} (d : Dir γ) (h : (d.map Prod.fst).Nodup) :
    (globJsonl d).Nodup := by
  unfold globJsonl
  exact ((sortByLe_perm lexLe _).nodup_iff).mpr (h.filter _)

theorem processOneCandidate_apply_counts (J : Type) (jf : JsonIF J) (src dst : Str)
    (w : World) (newDir1 : Dir Content) (mvs : List (Str × Str))
    (hne : eu src ≠ eu dst)
    (hmerge : mergeProjectDirs false ((dirFind w.projects (eu src)).getD [])
        ((dirFind w.projects (eu dst)).getD []) = some (newDir1, mvs))
    (hnodup : (newDir1.map Prod.fst).Nodup) :
    (processOneCandidate J jf false src dst w).2.1 = mvs.length ∧
    (processOneCandidate J jf false src dst w).2.2.1 =
      (globJsonl newDir1).countP (fileChanged J jf src dst newDir1) := by
  unfold processOneCandidate
  dsimp only
  rw [show (dirFind (mkdirStep false (eu dst) w).projects (eu src)).getD [] =
      (dirFind w.projects (eu src)).getD [] from by rw [mkdirStep_find_old hne]]
  rw [mkdirStep_find_new]
  rw [hmerge]
  dsimp only
  simp only [Bool.false_eq_true, if_false]
  rw [show dirFind (dirSet (dirSet (mkdirStep false (eu dst) w).projects (eu dst) newDir1)
      (eu src) (List.filter (fun e => startsWithStr e.1 ['.'])
        ((dirFind w.projects (eu src)).getD []))) (eu dst) = some newDir1 from by
    rw [dirFind_dirSet_ne (Ne.symm hne), dirFind_dirSet_self (mkdirStep_has _ _)]]
  simp only [Option.getD_some]
  constructor
  · trivial
  · refine Eq.trans (rewritePhase_apply_count J jf src dst (eu dst) (globJsonl newDir1)
      _ ?_ ?_) ?_
    · dsimp only
      rw [dirHas_dirSet, dirHas_dirSet]
      exact mkdirStep_has _ _
    · exact globJsonl_nodup newDir1 hnodup
    · dsimp only
      rw [dirFind_dirSet_ne (Ne.symm hne), dirFind_dirSet_self (mkdirStep_has _ _)]
      simp only [Option.getD_some]

theorem processOneCandidate_apply_merge_some (J : Type) (jf : JsonIF J) (src dst : Str)
    (w : World) (hne : eu src ≠ eu dst)
    (hok : (processOneCandidate J jf false src dst w).2.2.2 = none) :
    ∃ pr, mergeProjectDirs false ((dirFind w.projects (eu src)).getD [])
        ((dirFind w.projects (eu dst)).getD []) = some pr := by
  cases hm : mergeProjectDirs false ((dirFind w.projects (eu src)).getD [])
      ((dirFind w.projects (eu dst)).getD []) with
  | some pr => exact ⟨pr, rfl⟩
  | none =>
    exfalso
    unfold processOneCandidate at hok
    dsimp only at hok
    rw [show (dirFind (mkdirStep false (eu dst) w).projects (eu src)).getD [] =
        (dirFind w.projects (eu src)).getD [] from by rw [mkdirStep_find_old hne]] at hok
    rw [mkdirStep_find_new] at hok
    rw [hm] at hok
    exact Option.noConfusion hok

theorem glob_count_le (J : Type) (jf : JsonIF J) (src dst : Str) (B added : Dir Content) :
    (globJsonl B).countP (fileChanged J jf src dst B) ≤
      (globJsonl (B ++ added)).countP (fileChanged J jf src dst (B ++ added)) := by
  unfold globJsonl
  rw [List.Perm.countP_eq _ (sortByLe_perm lexLe _),
    List.Perm.countP_eq _ (sortByLe_perm lexLe _)]
  rw [List.map_append, List.filter_append, List.countP_append]
  have hcong : ((B.map Prod.fst).filter matchesJsonl).countP
      (fileChanged J jf src dst (B ++ added)) =
      ((B.map Prod.fst).filter matchesJsonl).countP (fileChanged J jf src dst B) := by
    apply List.countP_congr
    intro x hx
    have hmem : x ∈ B.map Prod.fst := List.mem_of_mem_filter hx
    have hfind : dirFind (B ++ added) x = dirFind B x :=
      dirFind_append_left _ (names_mem_dirHas hmem)
    unfold fileChanged
    rw [hfind]
  rw [hcong]
  exact Nat.le_add_right _ _

/-- Claim C4 (amended): per candidate, the entries-moved count reported
by a dry run equals the count an apply run performs (when apply
completes without exhausting the conflict space), but the
record-files-rewritten count of a dry run only covers `*.jsonl` files
already present in the destination directory before the merge — it
never exceeds, and can undercount, what an apply run rewrites. -/
theorem claim_C4 :
    ∀ (J : Type) (jf : JsonIF J) (src dst : Str) (w : World),
      eu src ≠ eu dst →
      (((dirFind w.projects (eu dst)).getD []).map Prod.fst).Nodup →
      (processOneCandidate J jf false src dst w).2.2.2 = none →
      (processOneCandidate J jf true src dst w).2.1 =
          (processOneCandidate J jf false src dst w).2.1 ∧
        (processOneCandidate J jf true src dst w).2.2.1 ≤
          (processOneCandidate J jf false src dst w).2.2.1 := by
  intro J jf src dst w hne hnd hok
  obtain ⟨⟨newDir1, mvs⟩, hmerge⟩ :=
    processOneCandidate_apply_merge_some J jf src dst w hne hok
  have hmerge' := hmerge
  rw [mergeProjectDirs_apply_eq] at hmerge'
  have hnd1 : (newDir1.map Prod.fst).Nodup := mergeApply_names_nodup _ _ _ _ hnd hmerge'
  obtain ⟨hA1, hA2⟩ :=
    processOneCandidate_apply_counts J jf src dst w newDir1 mvs hne hmerge hnd1
  constructor
  · rw [processOneCandidate_dry_moved, hA1]
    rw [mergeApply_length _ _ _ _ hmerge']
  · rw [processOneCandidate_dry_rewrites, hA2]
    obtain ⟨added, hadd⟩ := mergeApply_append _ _ _ _ hmerge'
    rw [hadd]
    exact glob_count_le J jf src dst _ added

/-- Claim C4 counterexample: at `w4` the dry run reports 1 entry moved
and 0 files rewritten, while the apply run on the same initial state
moves 1 entry and rewrites 1 file — the dry-run rewrite count does not
match what apply performs, because dry-run inspects the destination
directory before any file has been moved into it. -/
theorem claim_C4_counterexample :
    (processOneCandidate Unit jf4 true "/p".toList "/q".toList w4).2.1 = 1 ∧
    (processOneCandidate Unit jf4 true "/p".toList "/q".toList w4).2.2.1 = 0 ∧
    (processOneCandidate Unit jf4 false "/p".toList "/q".toList w4).2.1 = 1 ∧
    (processOneCandidate Unit jf4 false "/p".toList "/q".toList w4).2.2.1 = 1 := by
  refine ⟨?_, ?_, ?_, ?_⟩ <;> decide

/-- Witness for C4 at `w4`: the hypotheses hold there and the amended
comparison follows by applying the theorem. -/
theorem claim_C4_witness :
    (processOneCandidate Unit jf4 true "/p".toList "/q".toList w4).2.1 =
        (processOneCandidate Unit jf4 false "/p".toList "/q".toList w4).2.1 ∧
      (processOneCandidate Unit jf4 true "/p".toList "/q".toList w4).2.2.1 ≤
        (processOneCandidate Unit jf4 false "/p".toList "/q".toList w4).2.2.1 :=
  claim_C4 Unit jf4 "/p".toList "/q".toList w4 (by decide) (by decide) (by decide)

/-- A line aborts the crash-aware line step exactly when it is
non-blank and loads as a valid non-dict JSON value: the uncaught
`AttributeError` of `obj.get("cwd")` at line 159. -/
theorem rewriteLineE_none_iff (J : Type) (jf : JsonIFE J) (src dst line : Str) :
    rewriteLineE J jf src dst line = none ↔
      (pyStrip line ≠ [] ∧ jf.loads (pyStrip line) = LoadResult.nonDict) := by
  unfold rewriteLineE
  by_cases hb : pyStrip line = []
  · rw [if_pos hb]
    simp [hb]
  · rw [if_neg hb]
    cases hl : jf.loads (pyStrip line) with
    | raise => simp [hb]
    | nonDict => simp [hb]
    | dict o =>
      dsimp only
      cases hg : jf.getCwd o with
      | none => simp
      | some v =>
        cases v with
        | jstr cwd =>
          dsimp only
          by_cases hc : apply_prefix_mapping cwd src dst ≠ cwd
          · rw [if_pos hc]
            simp
          · rw [if_neg hc]
            simp
        | jother => simp

/-- Blank lines and lines on which `json.loads` raises pass through the
crash-aware line step unchanged. -/
theorem rewriteLineE_passthrough {J : Type} (jf : JsonIFE J) (src dst line : Str)
    (h : pyStrip line = [] ∨ jf.loads (pyStrip line) = LoadResult.raise) :
    rewriteLineE J jf src dst line = some (line, false) := by
  unfold rewriteLineE
  by_cases hb : pyStrip line = []
  · rw [if_pos hb]
  · rw [if_neg hb]
    rcases h with h | h
    · exact absurd h hb
    · rw [h]

/-- The crash-aware line pass aborts exactly when some line of the file
is non-blank and loads as a valid non-dict JSON value. -/
theorem rewriteLinesE_none_iff (J : Type) (jf : JsonIFE J) (src dst : Str)
    (lines : List Str) :
    rewriteLinesE J jf src dst lines = none ↔
      ∃ l ∈ lines, pyStrip l ≠ [] ∧ jf.loads (pyStrip l) = LoadResult.nonDict := by
  induction lines with
  | nil => simp [rewriteLinesE]
  | cons l ls ih =>
    rw [rewriteLinesE]
    cases hl : rewriteLineE J jf src dst l with
    | none =>
      constructor
      · intro _
        exact ⟨l, List.mem_cons_self l ls, (rewriteLineE_none_iff J jf src dst l).mp hl⟩
      · intro _
        rfl
    | some r =>
      cases hr : rewriteLinesE J jf src dst ls with
      | none =>
        constructor
        · intro _
          obtain ⟨x, hx, hxp⟩ := ih.mp hr
          exact ⟨x, List.mem_cons_of_mem l hx, hxp⟩
        · intro _
          rfl
      | some rs =>
        constructor
        · intro hcontra
          exact absurd hcontra (by simp)
        · rintro ⟨x, hx, hxp⟩
          rcases List.mem_cons.mp hx with rfl | hx2
          · rw [(rewriteLineE_none_iff J jf src dst x).mpr hxp] at hl
            exact absurd hl (by simp)
          · rw [ih.mpr ⟨x, hx2, hxp⟩] at hr
            exact absurd hr (by simp)

/-- When the crash-aware line pass completes, it produces exactly one
result per line, positionally given by the line step. -/
theorem rewriteLinesE_some (J : Type) (jf : JsonIFE J) (src dst : Str) :
    ∀ (lines : List Str) (out : List (Str × Bool)),
      rewriteLinesE J jf src dst lines = some out →
      out.length = lines.length ∧
      ∀ (i : Nat) (l : Str), lines[i]? = some l →
        ∃ r, rewriteLineE J jf src dst l = some r ∧ out[i]? = some r := by
  intro lines
  induction lines with
  | nil =>
    intro out h
    rw [rewriteLinesE] at h
    obtain rfl : ([] : List (Str × Bool)) = out := Option.some.inj h
    exact ⟨rfl, fun i l hl => by simp at hl⟩
  | cons l ls ih =>
    intro out h
    rw [rewriteLinesE] at h
    cases hl : rewriteLineE J jf src dst l with
    | none =>
      rw [hl] at h
      exact absurd h (by simp)
    | some r =>
      rw [hl] at h
      cases hr : rewriteLinesE J jf src dst ls with
      | none =>
        rw [hr] at h
        exact absurd h (by simp)
      | some rs =>
        rw [hr] at h
        obtain rfl : r :: rs = out := Option.some.inj h
        obtain ⟨hlen, hpos⟩ := ih rs hr
        refine ⟨by simp [hlen], ?_⟩
        intro i x hx
        cases i with
        | zero =>
          obtain rfl : l = x := by simpa using hx
          exact ⟨r, hl, by simp⟩
        | succ n =>
          obtain ⟨r2, hr2, ho2⟩ := hpos n x (by simpa using hx)
          exact ⟨r2, hr2, by simpa using ho2⟩

/-- The crash-aware line step agrees with the crash-free one on every
line that does not load as a valid non-dict value. -/
theorem rewriteLineE_agrees {J : Type} (jf : JsonIFE J) (src dst line : Str)
    (h : ¬ (pyStrip line ≠ [] ∧ jf.loads (pyStrip line) = LoadResult.nonDict)) :
    rewriteLineE J jf src dst line = some (rewriteLine J jf.toIF src dst line) := by
  unfold rewriteLineE rewriteLine JsonIFE.toIF
  by_cases hb : pyStrip line = []
  · rw [if_pos hb, if_pos hb]
  · rw [if_neg hb, if_neg hb]
    dsimp only
    cases hl : jf.loads (pyStrip line) with
    | raise => rfl
    | nonDict => exact absurd ⟨hb, hl⟩ h
    | dict o =>
      dsimp only
      cases hg : jf.getCwd o with
      | none => rfl
      | some v =>
        cases v with
        | jstr cwd =>
          dsimp only
          by_cases hc : apply_prefix_mapping cwd src dst ≠ cwd
          · rw [if_pos hc, if_pos hc]
          · rw [if_neg hc, if_neg hc]
        | jother => rfl

/-- When no line of the file loads as a valid non-dict value, the
crash-aware line pass completes and agrees with the crash-free one
through the restriction `JsonIFE.toIF`. -/
theorem rewriteLinesE_agrees {J : Type} (jf : JsonIFE J) (src dst : Str)
    (lines : List Str)
    (h : ∀ l ∈ lines, ¬ (pyStrip l ≠ [] ∧ jf.loads (pyStrip l) = LoadResult.nonDict)) :
    rewriteLinesE J jf src dst lines =
      some (rewriteLines J jf.toIF src dst lines) := by
  induction lines with
  | nil => rfl
  | cons l ls ih =>
    rw [rewriteLinesE, rewriteLineE_agrees jf src dst l (h l (List.mem_cons_self l ls)),
      ih (fun x hx => h x (List.mem_cons_of_mem l hx))]
    rfl

/-- When no line of the file loads as a valid non-dict value, the
crash-aware rewriter completes and agrees with the crash-free one. -/
theorem rewriteJsonlCwdsE_agrees {J : Type} (jf : JsonIFE J) (src dst : Str)
    (dry : Bool) (content : Content) (backup : Option Content)
    (h : ∀ l ∈ content, ¬ (pyStrip l ≠ [] ∧ jf.loads (pyStrip l) = LoadResult.nonDict)) :
    rewriteJsonlCwdsE J jf src dst dry content backup =
      some (rewriteJsonlCwds J jf.toIF src dst dry content backup) := by
  unfold rewriteJsonlCwdsE rewriteJsonlCwds
  rw [rewriteLinesE_agrees jf src dst content h]
  dsimp only
  by_cases hc : ((rewriteLines J jf.toIF src dst content).any fun r => r.2) = false
  · rw [if_pos hc, if_pos hc]
  · rw [if_neg hc, if_neg hc]
    cases dry with
    | true => rw [if_pos rfl, if_pos rfl]
    | false =>
      rw [if_neg (by decide), if_neg (by decide)]

/-- Claim C8: in the rewriter, every blank line and every line on which
`json.loads` raises passes through unchanged at its position and never
aborts the file: whenever the run over a file completes, the output has
exactly one line per input line, with such lines kept verbatim.  But
the `try`/`except` covers only the `json.loads` call, and line 159
`cwd = obj.get("cwd")` sits outside it, so a non-blank line holding
valid JSON that is not an object (e.g. `3`, `null`, `[1]`) raises an
uncaught `AttributeError`: the rewriter aborts — losing the processing
of every other line of the file with it — exactly when the file has
such a line. -/
theorem claim_C8 :
    (∀ (J : Type) (jf : JsonIFE J) (src dst : Str) (dry : Bool)
        (content : Content) (backup : Option Content)
        (res : Content × Option Content × Bool),
      rewriteJsonlCwdsE J jf src dst dry content backup = some res →
      res.1.length = content.length ∧
      ∀ (i : Nat) (line : Str), content[i]? = some line →
        (pyStrip line = [] ∨ jf.loads (pyStrip line) = LoadResult.raise) →
        res.1[i]? = some line) ∧
    (∀ (J : Type) (jf : JsonIFE J) (src dst : Str) (dry : Bool)
        (content : Content) (backup : Option Content),
      rewriteJsonlCwdsE J jf src dst dry content backup = none ↔
        ∃ l ∈ content,
          pyStrip l ≠ [] ∧ jf.loads (pyStrip l) = LoadResult.nonDict) := by
  constructor
  · intro J jf src dst dry content backup res h
    unfold rewriteJsonlCwdsE at h
    cases hls : rewriteLinesE J jf src dst content with
    | none =>
      rw [hls] at h
      exact absurd h (by simp)
    | some processed =>
      rw [hls] at h
      dsimp only at h
      obtain ⟨hlen, hpos⟩ := rewriteLinesE_some J jf src dst content processed hls
      by_cases hc : (processed.any fun r => r.2) = false
      · rw [if_pos hc] at h
        obtain rfl := Option.some.inj h
        exact ⟨rfl, fun i line hl _ => hl⟩
      · rw [if_neg hc] at h
        cases dry with
        | true =>
          rw [if_pos rfl] at h
          obtain rfl := Option.some.inj h
          exact ⟨rfl, fun i line hl _ => hl⟩
        | false =>
          rw [if_neg (by decide)] at h
          obtain rfl := Option.some.inj h
          refine ⟨by simpa using hlen, ?_⟩
          intro i line hl hpass
          obtain ⟨r, hr, ho⟩ := hpos i line hl
          rw [rewriteLineE_passthrough jf src dst line hpass] at hr
          obtain rfl := Option.some.inj hr
          simp [List.getElem?_map, ho]
  · intro J jf src dst dry content backup
    unfold rewriteJsonlCwdsE
    cases hls : rewriteLinesE J jf src dst content with
    | none =>
      dsimp only
      exact ⟨fun _ => (rewriteLinesE_none_iff J jf src dst content).mp hls,
        fun _ => rfl⟩
    | some processed =>
      dsimp only
      constructor
      · intro hcontra
        by_cases hc : (processed.any fun r => r.2) = false
        · rw [if_pos hc] at hcontra
          exact absurd hcontra (by simp)
        · rw [if_neg hc] at hcontra
          cases dry with
          | true =>
            rw [if_pos rfl] at hcontra
            exact absurd hcontra (by simp)
          | false =>
            rw [if_neg (by decide)] at hcontra
            exact absurd hcontra (by simp)
      · intro hex
        rw [(rewriteLinesE_none_iff J jf src dst content).mpr hex] at hls
        exact absurd hls (by simp)

/-- Claim C8 counterexample: a file whose second line is `3` — valid
JSON but not a dict — makes the rewriter raise the uncaught
`AttributeError` of `obj.get("cwd")`: no output is produced, and the
first line, which merely fails `json.loads` and should pass through, is
lost with the rest of the run. -/
theorem claim_C8_counterexample :
    rewriteJsonlCwdsE Unit jfNonDict "/a".toList "/b".toList false
      ["a\n".toList, "3\n".toList] none = none ∧
    jfNonDict.loads (pyStrip "a\n".toList) = LoadResult.raise ∧
    jfNonDict.loads (pyStrip "3\n".toList) = LoadResult.nonDict := by
  refine ⟨?_, ?_, ?_⟩ <;> decide

/-- Witness for claim C8: a one-line file whose line fails `json.loads`
completes with the line kept verbatim at its position, and a one-line
file whose line loads as the non-dict value `3` aborts the rewriter. -/
theorem claim_C8_witness :
    ((["a\n".toList] : Content)[0]? = some "a\n".toList) ∧
    rewriteJsonlCwdsE Unit jfNonDict "/a".toList "/b".toList false
      ["3\n".toList] none = none :=
  ⟨(claim_C8.1 Unit jfNonDict "/a".toList "/b".toList false ["a\n".toList] none
      (["a\n".toList], none, false) (by decide)).2 0 "a\n".toList (by rfl)
      (Or.inr (by decide)),
   (claim_C8.2 Unit jfNonDict "/a".toList "/b".toList false ["3\n".toList] none).mpr
      ⟨"3\n".toList, by decide, by decide, by decide⟩⟩
